import Mathlib

/-!
Verification of the sci.ts metaheuristics core: the Set Partitioning Problem
model (`SPProblem` in src/examples/airlineCrewScheduling/SPProblem.ts), the
steady-state genetic algorithm driver (`ssgarow` in
src/examples/airlineCrewScheduling/ssgarow.ts) and the generic two point
crossover operator (`tpx`).

Solutions are fixed-length bit vectors.  The external `std.ts` `BitSet`
primitive is modelled as a `List Bool`: reads out of range yield `false`,
writes out of range are no-ops, and copy construction from another vector's
buffer is a value copy (per the spec, inputs of the operators are not
mutated).  Randomness (the external `sci.discrete.randInt` and
`Math.random()`) is modelled as explicit streams threaded through every
operation, and the source's unbounded retry loops take an explicit fuel
bound and return `Option`, so every theorem quantifies over every possible
sequence of random draws.  Costs and fitness values are rationals.
-/

/-- `BitSet.get`: reads out of range yield `false`. -/
def bitGet (s : List Bool) (i : Nat) : Bool := s.getD i false

/-- `BitSet.set`: writes out of range are no-ops. -/
def bitSet (s : List Bool) (i : Nat) (b : Bool) : List Bool := s.set i b

/-- `BitSet.all()`: true iff every stored bit is set. -/
def bitAll (s : List Bool) : Bool := s.all (fun x => x)

/-- One toggle `s.set(i, !s.get(i))` as used by `SPProblem.improve`. -/
def bitFlip (s : List Bool) (i : Nat) : List Bool := s.set i (!(s.getD i false))

/-- Modelled from the spec: the shared pseudo-random source.  `ints` drives
the `sci.discrete.randInt` draws and `floats` drives the `Math.random()`
draws; the counters select the next draw of each kind. -/
structure Rng where
  ints : Nat → Nat
  idx : Nat
  floats : Nat → ℚ
  fidx : Nat

/-- Modelled from the spec: `sci.discrete.randInt(lo, hi)` returns a uniform
integer in `[lo, hi)`; the raw draw `d` is reduced into that interval. -/
def randIntD (lo hi d : Nat) : Nat := lo + d % (hi - lo)

def Rng.nextInt (g : Rng) (lo hi : Nat) : Nat × Rng :=
  (randIntD lo hi (g.ints g.idx), ⟨g.ints, g.idx + 1, g.floats, g.fidx⟩)

def Rng.nextFloat (g : Rng) : ℚ × Rng :=
  (g.floats g.fidx, ⟨g.ints, g.idx, g.floats, g.fidx + 1⟩)

/-- The Set Partitioning Problem state after construction: `sets` holds the
(sorted in place by `init`) column sets, `costs` the parallel cost vector,
and `penalty` the derived `average(costs) * penaltyFactor`. -/
structure SPProblem where
  rows : Nat
  sets : List (List Nat)
  costs : List ℚ
  penalty : ℚ

/-- `get n()`: the problem size is the number of sets/columns. -/
def SPProblem.n (p : SPProblem) : Nat := p.sets.length

/-- Modelled from the spec: `sci.statistics.avg`, the mean of a sequence. -/
def avg (l : List ℚ) : ℚ := l.sum / l.length

/-- The constructor's error message, naming both lengths. -/
def lengthMsg (a b : Nat) : String :=
  "Lengths:\n" ++ toString a ++ " sets and " ++ toString b ++ " costs"

/-- Modelled from the spec: `std.algorithm.sort` sorts ascending. -/
def sortAsc (l : List Nat) : List Nat := l.insertionSort (fun a b => a ≤ b)

/-- The `SPProblem` constructor: validates `sets.length = costs.length`
(else it throws the error naming both lengths), computes
`penalty = avg(costs) * penaltyFactor` and runs `init()`, which sorts each
`sets[i]` ascending in place. -/
def mkSPProblem (rows : Nat) (sets : List (List Nat)) (costs : List ℚ)
    (penaltyFactor : ℚ) : Except String SPProblem :=
  if sets.length ≠ costs.length then
    Except.error (lengthMsg sets.length costs.length)
  else
    Except.ok { rows := rows, sets := sets.map sortAsc, costs := costs
                penalty := avg costs * penaltyFactor }

/-- `this.Ri[row].push(i)` inside `init()`. -/
def pushRow (R : List (List Nat)) (i row : Nat) : List (List Nat) :=
  R.set row ((R.getD row []) ++ [i])

/-- `this.sets[i].forEach(row => this.Ri[row].push(i))` for one column. -/
def fillSet (R : List (List Nat)) (i : Nat) (sset : List Nat) : List (List Nat) :=
  sset.foldl (fun acc row => pushRow acc i row) R

/-- The `init()` loop over all columns, building the transpose `Ri`. -/
def buildRiAux (i : Nat) (ssets : List (List Nat)) (R : List (List Nat)) :
    List (List Nat) :=
  match ssets with
  | [] => R
  | sset :: rest => buildRiAux (i + 1) rest (fillSet R i sset)

/-- `Ri`: for each row, the column indices covering it (built by `init()`
starting from `rows` empty lists). -/
def SPProblem.Ri (p : SPProblem) : List (List Nat) :=
  buildRiAux 0 p.sets (List.replicate p.rows [])

/-- `averageNonZeros`: mean number of rows per column, computed by `init()`. -/
def SPProblem.averageNonZeros (p : SPProblem) : ℚ :=
  (p.sets.map (fun l => (l.length : ℚ))).sum / (p.n : ℚ)

/-- The inner loop of `value`: `r` starts at `-1` and is incremented once
for every selected column covering the row. -/
def rowCount (s : List Bool) (row : List Nat) : Int :=
  row.foldl (fun r j => if bitGet s j then r + 1 else r) (-1)

/-- `value(s)`: accumulates `|r| * penalty` over the rows of `Ri`, then adds
the costs of the selected columns (iterating over the indices of `s`). -/
def SPProblem.value (p : SPProblem) (s : List Bool) : ℚ :=
  let penalties := p.Ri.foldl
    (fun acc row => acc + ((rowCount s row).natAbs : ℚ) * p.penalty) 0
  let v := (List.range s.length).foldl
    (fun acc i => if bitGet s i then acc + p.costs.getD i 0 else acc) 0
  v + penalties

/-- The `generate()` for-loop: while `i < nonZero`, draw a column; a draw
hitting an already selected column retries without counting (`i--`). -/
def generateLoop (n : Nat) (nonZero : ℚ) :
    Nat → Nat → List Bool → Rng → Option (List Bool × Rng)
  | 0, i, s, g => if (i : ℚ) < nonZero then none else some (s, g)
  | fuel + 1, i, s, g =>
    if (i : ℚ) < nonZero then
      let (v, g1) := g.nextInt 0 n
      if bitGet s v then generateLoop n nonZero fuel i s g1
      else generateLoop n nonZero fuel (i + 1) (bitSet s v true) g1
    else some (s, g)

/-- `generate()`: starts from the all-zero solution of length `n` with
target `rows / averageNonZeros`. -/
def SPProblem.generate (p : SPProblem) (g : Rng) (fuel : Nat) :
    Option (List Bool × Rng) :=
  generateLoop p.n ((p.rows : ℚ) / p.averageNonZeros) fuel 0
    (List.replicate p.n false) g

inductive RowSelectionStrategy | Random | Max
deriving DecidableEq

inductive ImprovementStrategy | First | Best
deriving DecidableEq

/-- `ri`: the members of a row's `Ri` list selected in the current solution. -/
def riSelected (s : List Bool) (row : List Nat) : List Nat :=
  row.filter (fun j => bitGet s j)

/-- The `Max` scan of `selectRow`: keep the first selected-cover list that is
strictly longer than the best so far. -/
def maxFold (s : List Bool) (rs : List (List Nat)) (acc : List Nat) : List Nat :=
  rs.foldl (fun mx row =>
    let r := riSelected s row
    if mx.length < r.length then r else mx) acc

/-- `selectRow(s, rss)`: `Max` scans all rows of `Ri`; `Random` draws one
row index uniformly in `[0, rows)`. -/
def SPProblem.selectRow (p : SPProblem) (s : List Bool)
    (rss : RowSelectionStrategy) (g : Rng) : List Nat × Rng :=
  match rss with
  | RowSelectionStrategy.Max => (maxFold s p.Ri [], g)
  | RowSelectionStrategy.Random =>
    let (v, g1) := g.nextInt 0 p.rows
    (riSelected s (p.Ri.getD v []), g1)

/-- The `Best` loop of `improve`: flip each candidate column, evaluate,
restore, and remember the index of the best strict improvement. -/
def bestLoop (p : SPProblem) :
    List Nat → List Bool → ℚ → Option Nat → Nat → List Bool × ℚ × Option Nat
  | [], newS, bestCost, best, _ => (newS, bestCost, best)
  | c :: rest, newS, bestCost, best, i =>
    let flipped := bitFlip newS c
    let colCost := p.value flipped
    if colCost < bestCost then bestLoop p rest (bitFlip flipped c) colCost (some i) (i + 1)
    else bestLoop p rest (bitFlip flipped c) bestCost best (i + 1)

/-- The `First` loop of `improve`: flip, evaluate, return at the first
strict improvement, otherwise restore and continue. -/
def firstLoop (p : SPProblem) (bestCost : ℚ) :
    List Nat → List Bool → Option (List Bool)
  | [], _ => none
  | c :: rest, newS =>
    let flipped := bitFlip newS c
    if p.value flipped < bestCost then some flipped
    else firstLoop p bestCost rest (bitFlip flipped c)

/-- `improve(s, is, rss)`: local search over the selected row's covering
columns; returns a strictly improved flip of `s` or `s` itself. -/
def SPProblem.improve (p : SPProblem) (s : List Bool) (strat : ImprovementStrategy)
    (rss : RowSelectionStrategy) (g : Rng) : List Bool × Rng :=
  let (cols, g1) := p.selectRow s rss g
  let bestCost := p.value s
  match strat with
  | ImprovementStrategy.Best =>
    match bestLoop p cols s bestCost none 0 with
    | (newS, _, some k) => (bitFlip newS (cols.getD k 0), g1)
    | (_, _, none) => (s, g1)
  | ImprovementStrategy.First =>
    match firstLoop p bestCost cols s with
    | some t => (t, g1)
    | none => (s, g1)

/-- The `inRange` helper of `SPProblem.crossover`, exactly as written:
`(i > x && i < x + distance) || (x + distance >= n && i <= (x + distance) % n)`. -/
def inRangeX (n x distance i : Nat) : Bool :=
  (decide (x < i) && decide (i < x + distance)) ||
    (decide (n ≤ x + distance) && decide (i ≤ (x + distance) % n))

/-- The `while ((distance = randInt(0, size - 1)) === 0) {}` retry loop. -/
def drawDistance (size : Nat) : Nat → Rng → Option (Nat × Rng)
  | 0, _ => none
  | fuel + 1, g =>
    let (d, g1) := g.nextInt 0 (size - 1)
    if d = 0 then drawDistance size fuel g1 else some (d, g1)

/-- The assignment loop of `SPProblem.crossover`: every bit of each child is
assigned from the parent chosen by `inRange`, flipped with probability
`1/n` (one `Math.random()` draw per child per bit, child `ab` first). -/
def xLoop (p : SPProblem) (a b : List Bool) (x distance : Nat) :
    Nat → Nat → List Bool → List Bool → Rng → (List Bool × List Bool) × Rng
  | _, 0, ab, ba, g => ((ab, ba), g)
  | i, cnt + 1, ab, ba, g =>
    let pm := 1 / (p.n : ℚ)
    let (q1, g1) := g.nextFloat
    let (q2, g2) := g1.nextFloat
    if inRangeX p.n x distance i then
      xLoop p a b x distance (i + 1) cnt
        (bitSet ab i (if q1 < pm then !(bitGet b i) else bitGet b i))
        (bitSet ba i (if q2 < pm then !(bitGet a i) else bitGet a i)) g2
    else
      xLoop p a b x distance (i + 1) cnt
        (bitSet ab i (if q1 < pm then !(bitGet a i) else bitGet a i))
        (bitSet ba i (if q2 < pm then !(bitGet b i) else bitGet b i)) g2

/-- `crossover(a, b)`: fresh all-zero children, random window start
`x ∈ [0, a.size)`, nonzero `distance` drawn by retry, then the `inRange`
assignment loop over every index of `a`. -/
def SPProblem.crossover (p : SPProblem) (a b : List Bool) (g : Rng) (fuel : Nat) :
    Option ((List Bool × List Bool) × Rng) :=
  let (x, g1) := g.nextInt 0 a.length
  match drawDistance a.length fuel g1 with
  | none => none
  | some (distance, g2) =>
    some (xLoop p a b x distance 0 a.length (List.replicate a.length false)
      (List.replicate b.length false) g2)

/-- The marking pass of `validate` over one selected column: fail if a row
is already marked, otherwise mark it. -/
def markRows (bs : List Bool) : List Nat → Option (List Bool)
  | [] => some bs
  | r :: rest => if bitGet bs r then none else markRows (bitSet bs r true) rest

/-- The `validate` walk over all columns, marking rows of selected ones. -/
def validateAux (s : List Bool) (bs : List Bool) (i : Nat) :
    List (List Nat) → Option (List Bool)
  | [] => some bs
  | sset :: rest =>
    if bitGet s i then
      match markRows bs sset with
      | none => none
      | some bs2 => validateAux s bs2 (i + 1) rest
    else validateAux s bs (i + 1) rest

/-- `validate(s)`: walk the selected columns marking covered rows; an
already-marked row fails immediately; finally all `rows` bits must be set. -/
def SPProblem.validate (p : SPProblem) (s : List Bool) : Bool :=
  match validateAux s (List.replicate p.rows false) 0 p.sets with
  | none => false
  | some bs => bitAll bs

/-- The assignment loop of the generic `tpx`: for `i < distance`, at index
`(x + i) % size` child `ab` takes `b`'s bit and `ba` takes `a`'s bit. -/
def tpxLoop (a b : List Bool) (x size : Nat) :
    Nat → Nat → List Bool → List Bool → List Bool × List Bool
  | _, 0, ab, ba => (ab, ba)
  | i, cnt + 1, ab, ba =>
    let bit := (x + i) % size
    tpxLoop a b x size (i + 1) cnt (bitSet ab bit (bitGet b bit))
      (bitSet ba bit (bitGet a bit))

/-- `tpx(a, b, xFactor)`: children start as copies of the parents, a random
start `x ∈ [0, a.size)` is drawn and a window of `ceil(a.size * xFactor)`
wrap-around indices is exchanged. -/
def tpx (a b : List Bool) (xFactor : ℚ) (g : Rng) : List Bool × List Bool :=
  let (x, _) := g.nextInt 0 a.length
  tpxLoop a b x a.length 0 (Nat.ceil ((a.length : ℚ) * xFactor)) a b

/-- `improvements` successive `improve` passes, as applied by `ssgarow`. -/
def improveN (p : SPProblem) (strat : ImprovementStrategy)
    (rss : RowSelectionStrategy) :
    Nat → List Bool → Rng → List Bool × Rng
  | 0, s, g => (s, g)
  | k + 1, s, g =>
    let (s1, g1) := p.improve s strat rss g
    improveN p strat rss k s1 g1

/-- The population initialization of `ssgarow`: `popSize` times generate,
improve `improvements` times, and cache the fitness. -/
def initLoop (p : SPProblem) (strat : ImprovementStrategy)
    (rss : RowSelectionStrategy) (improvements fuel : Nat) :
    Nat → List (List Bool) → List ℚ → Rng → Option (List (List Bool) × List ℚ × Rng)
  | 0, pop, pCost, g => some (pop, pCost, g)
  | k + 1, pop, pCost, g =>
    match p.generate g fuel with
    | none => none
    | some (s0, g1) =>
      let (s1, g2) := improveN p strat rss improvements s0 g1
      initLoop p strat rss improvements fuel k (pop ++ [s1])
        (pCost ++ [p.value s1]) g2

/-- `binaryTournament()`: two uniform indices, the lower-value one wins. -/
def binaryTournament (p : SPProblem) (pop : List (List Bool)) (g : Rng) :
    Nat × Rng :=
  let (a, g1) := g.nextInt 0 pop.length
  let (b, g2) := g1.nextInt 0 pop.length
  if p.value (pop.getD a []) < p.value (pop.getD b []) then (a, g2) else (b, g2)

/-- `getCandidates()`: repeat binary tournaments, skipping duplicates, until
`target` distinct candidate indices are collected. -/
def candLoop (p : SPProblem) (pop : List (List Bool)) (target : Nat) :
    Nat → List Nat → Rng → Option (List Nat × Rng)
  | 0, cand, g => if cand.length < target then none else some (cand, g)
  | fuel + 1, cand, g =>
    if cand.length < target then
      let (c, g1) := binaryTournament p pop g
      if cand.contains c then candLoop p pop target fuel cand g1
      else candLoop p pop target fuel (cand ++ [c]) g1
    else some (cand, g)

/-- The crossover phase of one generation: each candidate crosses over with
probability `xRate` against a random candidate, children collected in order. -/
def buildNewP (p : SPProblem) (pop : List (List Bool)) (selection : List Nat)
    (xRate : ℚ) (fuel : Nat) :
    List Nat → List (List Bool) → Rng → Option (List (List Bool) × Rng)
  | [], acc, g => some (acc, g)
  | sIdx :: rest, acc, g =>
    let (q, g1) := g.nextFloat
    if q < xRate then
      let (pd, g2) := g1.nextInt 0 selection.length
      match p.crossover (pop.getD sIdx []) (pop.getD (selection.getD pd 0) []) g2 fuel with
      | none => none
      | some ((c1, c2), g3) =>
        buildNewP p pop selection xRate fuel rest (acc ++ [c1, c2]) g3
    else buildNewP p pop selection xRate fuel rest acc g1

/-- `findWorst()`: index of the maximum recomputed fitness (`-Infinity`
start modelled by the `none` accumulator; first index wins ties). -/
def findWorstFold (p : SPProblem) (pop : List (List Bool)) : Option (Nat × ℚ) :=
  (List.range pop.length).foldl (fun acc i =>
    match acc with
    | none => some (i, p.value (pop.getD i []))
    | some (k, kv) =>
      if kv < p.value (pop.getD i []) then some (i, p.value (pop.getD i []))
      else some (k, kv)) none

def findWorst (p : SPProblem) (pop : List (List Bool)) : Option Nat :=
  (findWorstFold p pop).map (fun r => r.1)

/-- `findBest()`: index of the minimum recomputed fitness. -/
def findBestFold (p : SPProblem) (pop : List (List Bool)) : Option (Nat × ℚ) :=
  (List.range pop.length).foldl (fun acc i =>
    match acc with
    | none => some (i, p.value (pop.getD i []))
    | some (k, kv) =>
      if kv > p.value (pop.getD i []) then some (i, p.value (pop.getD i []))
      else some (k, kv)) none

def findBest (p : SPProblem) (pop : List (List Bool)) : Option Nat :=
  (findBestFold p pop).map (fun r => r.1)

/-- The replacement phase: every child is improved, evaluated, and replaces
the current worst member iff strictly better than that member's cached cost. -/
def replaceLoop (p : SPProblem) (strat : ImprovementStrategy)
    (rss : RowSelectionStrategy) (improvements : Nat) :
    List (List Bool) → List (List Bool) → List ℚ → Rng →
      List (List Bool) × List ℚ × Rng
  | [], pop, pCost, g => (pop, pCost, g)
  | child :: rest, pop, pCost, g =>
    let (c, g1) := improveN p strat rss improvements child g
    let pVal := p.value c
    match findWorst p pop with
    | none => replaceLoop p strat rss improvements rest pop pCost g1
    | some w =>
      if pCost.getD w 0 > pVal then
        replaceLoop p strat rss improvements rest (pop.set w c) (pCost.set w pVal) g1
      else replaceLoop p strat rss improvements rest pop pCost g1

/-- The generation loop of `ssgarow`: selection, crossover, replacement. -/
def genLoop (p : SPProblem) (strat : ImprovementStrategy)
    (rss : RowSelectionStrategy) (improvements target : Nat) (xRate : ℚ)
    (fuel : Nat) :
    Nat → List (List Bool) → List ℚ → Rng → Option (List (List Bool) × List ℚ × Rng)
  | 0, pop, pCost, g => some (pop, pCost, g)
  | gen + 1, pop, pCost, g =>
    match candLoop p pop target fuel [] g with
    | none => none
    | some (selection, g1) =>
      match buildNewP p pop selection xRate fuel selection [] g1 with
      | none => none
      | some (newP, g2) =>
        match replaceLoop p strat rss improvements newP pop pCost g2 with
        | (pop2, pCost2, g3) =>
          genLoop p strat rss improvements target xRate fuel gen pop2 pCost2 g3

/-- `ssgarow(problem, popSize, genN, improvements, is, rss, selRate, xRate)`:
initialize, run `genN` generations, then improve the best member once more
per improvement pass and return it. -/
def ssgarow (p : SPProblem) (popSize genN improvements : Nat)
    (strat : ImprovementStrategy) (rss : RowSelectionStrategy)
    (selRate xRate : ℚ) (g : Rng) (fuel : Nat) : Option (List Bool) :=
  match initLoop p strat rss improvements fuel popSize [] [] g with
  | none => none
  | some (pop, pCost, g1) =>
    match genLoop p strat rss improvements (Nat.floor ((popSize : ℚ) * selRate))
        xRate fuel genN pop pCost g1 with
    | none => none
    | some (pop2, _, g2) =>
      match findBest p pop2 with
      | none => none
      | some b => some (improveN p strat rss improvements (pop2.getD b []) g2).1

/-- Count of selected sets covering row `q`, scanning the columns from index
`i` on: the reference quantity the claims are stated against. -/
def coverPart (s : List Bool) (q : Nat) : Nat → List (List Nat) → Nat
  | _, [] => 0
  | i, sset :: rest =>
    (if bitGet s i ∧ q ∈ sset then 1 else 0) + coverPart s q (i + 1) rest

/-- Number of selected bits of a solution. -/
def popCount (s : List Bool) : Nat := s.countP (fun x => x)

/-- Well-formed problem state: each column is a set of valid row indices. -/
def SPProblem.wf (p : SPProblem) : Prop :=
  ∀ l ∈ p.sets, l.Nodup ∧ ∀ r ∈ l, r < p.rows

instance (p : SPProblem) : Decidable p.wf := by
  unfold SPProblem.wf; infer_instance

/-- Minimum of a list of rationals (0 for the empty list). -/
def qMin : List ℚ → ℚ
  | [] => 0
  | x :: xs => xs.foldl min x

/-- Reference list of the columns covering row `q` among the columns from
index `i` on (used to characterize the `Ri` transpose built by `init()`). -/
def coverIdx (q : Nat) : Nat → List (List Nat) → List Nat
  | _, [] => []
  | i, sset :: rest => (if q ∈ sset then [i] else []) ++ coverIdx q (i + 1) rest

/-- The spec's concrete SPP instance (`rows=3`, four sets, unit costs). -/
def exP : SPProblem :=
  { rows := 3, sets := [[0], [1], [2], [0, 1, 2]], costs := [1, 1, 1, 1]
    penalty := 1 }

/-- A concrete SPP instance whose generation target `rows / averageNonZeros`
is the non-integer `5/2` (`averageNonZeros = 6/5`). -/
def p6 : SPProblem :=
  { rows := 3, sets := [[0, 1], [2], [0], [1], [2]], costs := [1, 1, 1, 1, 1]
    penalty := 1 }

/-- A concrete SPP instance of size `n = 3` used to exercise `crossover`. -/
def p5 : SPProblem :=
  { rows := 1, sets := [[0], [0], [0]], costs := [1, 1, 1], penalty := 1 }

/-- A minimal one-row, one-set SPP instance used to run the whole driver. -/
def p1 : SPProblem :=
  { rows := 1, sets := [[0]], costs := [1], penalty := 1 }

/-! ### Basic list and bit-vector lemmas -/

lemma length_bitSet (s : List Bool) (i : Nat) (b : Bool) :
    (bitSet s i b).length = s.length := List.length_set s i b

lemma getD_set_self {α : Type} (l : List α) (i : Nat) (a d : α) (h : i < l.length) :
    (l.set i a).getD i d = a := by
  rw [List.getD_eq_getElem?_getD, List.getElem?_set_eq h]
  rfl

lemma getD_set_ne {α : Type} (l : List α) (i j : Nat) (a d : α) (h : j ≠ i) :
    (l.set i a).getD j d = l.getD j d := by
  rw [List.getD_eq_getElem?_getD, List.getElem?_set_ne (Ne.symm h),
    ← List.getD_eq_getElem?_getD]

lemma getD_oob {α : Type} (l : List α) (i : Nat) (d : α) (h : l.length ≤ i) :
    l.getD i d = d := by
  rw [List.getD_eq_getElem?_getD, List.getElem?_eq_none h]
  rfl

lemma getD_lt {α : Type} (l : List α) (i : Nat) (d : α) (h : i < l.length) :
    l.getD i d = l[i] := by
  rw [List.getD_eq_getElem?_getD, List.getElem?_eq_getElem h]
  rfl

lemma getD_replicate {α : Type} (n m : Nat) (x d : α) :
    (List.replicate n x).getD m d = if m < n then x else d := by
  rw [List.getD_eq_getElem?_getD, List.getElem?_replicate]
  by_cases h : m < n <;> simp [h]

lemma set_getD_self {α : Type} : ∀ (l : List α) (i : Nat) (d : α),
    l.set i (l.getD i d) = l
  | [], _, _ => rfl
  | _ :: _, 0, _ => rfl
  | x :: xs, i + 1, d => congrArg (x :: ·) (set_getD_self xs i d)

lemma bitGet_set_self (s : List Bool) (i : Nat) (b : Bool) (h : i < s.length) :
    bitGet (bitSet s i b) i = b := getD_set_self s i b false h

lemma bitGet_set_ne (s : List Bool) (i j : Nat) (b : Bool) (h : j ≠ i) :
    bitGet (bitSet s i b) j = bitGet s j := getD_set_ne s i j b false h

lemma getD_bitSet_self (s : List Bool) (i : Nat) (b : Bool) (h : i < s.length) :
    (bitSet s i b).getD i false = b := getD_set_self s i b false h

lemma getD_bitSet_ne (s : List Bool) (i j : Nat) (b : Bool) (h : j ≠ i) :
    (bitSet s i b).getD j false = s.getD j false := getD_set_ne s i j b false h

lemma bitFlip_bitFlip (s : List Bool) (i : Nat) : bitFlip (bitFlip s i) i = s := by
  unfold bitFlip
  by_cases h : i < s.length
  · rw [getD_set_self s i _ false h, List.set_set, Bool.not_not, set_getD_self]
  · rw [List.set_eq_of_length_le (Nat.le_of_not_lt h),
      List.set_eq_of_length_le (Nat.le_of_not_lt h)]

lemma length_bitFlip (s : List Bool) (i : Nat) : (bitFlip s i).length = s.length :=
  List.length_set s i _

/-- Fold of additions equals the starting value plus a mapped sum. -/
lemma foldl_add_map {α : Type} (f : α → ℚ) (l : List α) (c : ℚ) :
    l.foldl (fun acc x => acc + f x) c = c + (l.map f).sum := by
  induction l generalizing c with
  | nil => simp
  | cons x xs ih => simp [ih, add_assoc]

/-- The guarded cost accumulation as a mapped sum. -/
lemma foldl_add_ite_map {α : Type} (q : α → Bool) (f : α → ℚ) (l : List α) (c : ℚ) :
    l.foldl (fun acc x => if q x then acc + f x else acc) c
      = c + (l.map (fun x => if q x then f x else 0)).sum := by
  induction l generalizing c with
  | nil => simp
  | cons x xs ih =>
    by_cases h : q x <;> simp [h, ih, add_assoc]

/-- Enumerating a list by `getD` over its range of indices. -/
lemma map_range_getD {α : Type} (l : List α) (d : α) :
    (List.range l.length).map (fun i => l.getD i d) = l := by
  induction l with
  | nil => simp
  | cons x xs ih =>
    rw [List.length_cons, List.range_succ_eq_map, List.map_cons, List.map_map]
    have hcomp : ((fun i => (x :: xs).getD i d) ∘ Nat.succ) = fun i => xs.getD i d := by
      funext i
      rfl
    rw [hcomp, ih]
    rfl

lemma map_eq_map_range_getD {α β : Type} (f : α → β) (l : List α) (d : α) :
    l.map f = (List.range l.length).map (fun i => f (l.getD i d)) := by
  conv_lhs => rw [← map_range_getD l d]
  rw [List.map_map]
  rfl

/-- `rowCount` counts the selected entries of the row, starting from `-1`. -/
lemma rowCount_eq (s : List Bool) (row : List Nat) :
    rowCount s row = (row.countP (fun j => bitGet s j) : Int) - 1 := by
  have key : ∀ (l : List Nat) (c : Int),
      l.foldl (fun r j => if bitGet s j then r + 1 else r) c
        = c + (l.countP (fun j => bitGet s j) : Int) := by
    intro l
    induction l with
    | nil => simp
    | cons j rest ih =>
      intro c
      by_cases h : bitGet s j
      · rw [List.foldl_cons, if_pos h, ih, List.countP_cons, if_pos h]
        push_cast
        ring
      · rw [List.foldl_cons, if_neg h, ih, List.countP_cons, if_neg h]
        push_cast
        ring
  unfold rowCount
  rw [key]
  ring

/-! ### Minimum of a cost list -/

lemma foldl_min_le_init (l : List ℚ) (c : ℚ) : l.foldl min c ≤ c := by
  induction l generalizing c with
  | nil => simp
  | cons x xs ih => exact le_trans (ih (min c x)) (min_le_left c x)

lemma foldl_min_le_mem (l : List ℚ) (c x : ℚ) (hx : x ∈ l) : l.foldl min c ≤ x := by
  induction l generalizing c with
  | nil => simp at hx
  | cons y ys ih =>
    rcases List.mem_cons.mp hx with h | h
    · subst h
      exact le_trans (foldl_min_le_init ys (min c x)) (min_le_right c x)
    · exact ih (min c y) h

lemma foldl_min_self_mem (l : List ℚ) (c : ℚ) :
    l.foldl min c = c ∨ l.foldl min c ∈ l := by
  induction l generalizing c with
  | nil => left; rfl
  | cons y ys ih =>
    rcases ih (min c y) with h | h
    · rcases min_cases c y with ⟨h1, _⟩ | ⟨h1, _⟩
      · left; rw [List.foldl_cons, h, h1]
      · right
        rw [List.foldl_cons, h, h1]
        exact List.mem_cons_self y ys
    · right
      exact List.mem_cons_of_mem y h

lemma qMin_le_mem (l : List ℚ) (x : ℚ) (hx : x ∈ l) : qMin l ≤ x := by
  match l with
  | y :: ys =>
    show ys.foldl min y ≤ x
    rcases List.mem_cons.mp hx with h | h
    · subst h; exact foldl_min_le_init ys x
    · exact foldl_min_le_mem ys y x h

lemma qMin_le_getD (l : List ℚ) (i : Nat) (h : i < l.length) :
    qMin l ≤ l.getD i 0 := by
  rw [getD_lt l i 0 h]
  exact qMin_le_mem l _ (List.getElem_mem h)

lemma qMin_mem_self (l : List ℚ) (h : l ≠ []) : qMin l ∈ l := by
  match l with
  | y :: ys =>
    show ys.foldl min y ∈ y :: ys
    rcases foldl_min_self_mem ys y with hc | hc
    · rw [hc]; exact List.mem_cons_self y ys
    · exact List.mem_cons_of_mem y hc

lemma qMin_mem (l : List ℚ) (h : l ≠ []) :
    ∃ i, i < l.length ∧ qMin l = l.getD i 0 := by
  obtain ⟨i, hi, hv⟩ := List.mem_iff_getElem.mp (qMin_mem_self l h)
  exact ⟨i, hi, by rw [getD_lt l i 0 hi, hv]⟩

/-- Replacing one entry by something no larger never raises the minimum. -/
lemma qMin_set_le (l : List ℚ) (w : Nat) (v : ℚ) (hw : w < l.length)
    (hv : v ≤ l.getD w 0) : qMin (l.set w v) ≤ qMin l := by
  have hne : l ≠ [] := by
    intro h
    rw [h] at hw
    simp at hw
  obtain ⟨m, hm, hmv⟩ := qMin_mem l hne
  by_cases hmw : m = w
  · subst hmw
    calc qMin (l.set m v) ≤ (l.set m v).getD m 0 :=
          qMin_le_getD _ m (by simpa using hm)
      _ = v := getD_set_self l m v 0 hm
      _ ≤ l.getD m 0 := hv
      _ = qMin l := hmv.symm
  · calc qMin (l.set w v) ≤ (l.set w v).getD m 0 :=
          qMin_le_getD _ m (by simpa using hm)
      _ = l.getD m 0 := getD_set_ne l w m v 0 hmw
      _ = qMin l := hmv.symm

/-- Two bit vectors of equal length with equal reads are equal. -/
lemma list_ext_getD (l1 l2 : List Bool) (hlen : l1.length = l2.length)
    (h : ∀ j, j < l1.length → l1.getD j false = l2.getD j false) : l1 = l2 := by
  apply List.ext_getElem hlen
  intro i h1 h2
  have hh := h i h1
  rwa [getD_lt _ _ _ h1, getD_lt _ _ _ h2] at hh

/-- C8: `SPProblem(rows, sets, costs, penaltyFactor)` throws the error naming
both lengths iff `sets.length ≠ costs.length`; when the lengths match,
construction succeeds with `penalty = avg(costs) * penaltyFactor`. -/
theorem C8_constructor_validation (rows : Nat) (sets : List (List Nat))
    (costs : List ℚ) (pf : ℚ) :
    (mkSPProblem rows sets costs pf
        = Except.error (lengthMsg sets.length costs.length)
      ↔ sets.length ≠ costs.length)
    ∧ (sets.length = costs.length →
        ∃ p, mkSPProblem rows sets costs pf = Except.ok p
          ∧ p.penalty = avg costs * pf) := by
  unfold mkSPProblem
  by_cases h : sets.length = costs.length
  · have hn : ¬ sets.length ≠ costs.length := by simpa using h
    refine ⟨⟨fun he => ?_, fun hne => absurd h hne⟩, fun _ =>
      ⟨{ rows := rows, sets := sets.map sortAsc, costs := costs
         penalty := avg costs * pf }, ?_, rfl⟩⟩
    · rw [if_neg hn] at he
      exact absurd he (by simp)
    · rw [if_neg hn]
  · refine ⟨⟨fun _ => h, fun _ => ?_⟩, fun heq => absurd heq h⟩
    rw [if_pos h]

/-- Witness for C8: `sets.length = 2` with `costs.length = 3` fails with the
error naming both lengths; matched lengths succeed with the derived penalty. -/
theorem C8_constructor_validation_witness :
    (mkSPProblem 3 [[0], [1]] [1, 1, 1] 1 = Except.error (lengthMsg 2 3))
    ∧ ∃ p, mkSPProblem 3 [[0], [1], [2]] [1, 2, 3] 2 = Except.ok p
        ∧ p.penalty = avg [1, 2, 3] * 2 := by
  constructor
  · exact (C8_constructor_validation 3 [[0], [1]] [1, 1, 1] 1).1.2 (by decide)
  · exact (C8_constructor_validation 3 [[0], [1], [2]] [1, 2, 3] 2).2 rfl

/-- C10: construction stores each caller-supplied `sets[i]` sorted ascending
in place (the stored array is the image of the caller's array under the
ascending sort, which permutes each set), while the costs array and the rows
count are left unchanged. -/
theorem C10_construction_sorts_sets (rows : Nat) (sets : List (List Nat))
    (costs : List ℚ) (pf : ℚ) (p : SPProblem)
    (h : mkSPProblem rows sets costs pf = Except.ok p) :
    p.sets = sets.map sortAsc
    ∧ (∀ l ∈ sets, List.Sorted (fun a c => a ≤ c) (sortAsc l) ∧ (sortAsc l).Perm l)
    ∧ p.costs = costs ∧ p.rows = rows := by
  unfold mkSPProblem at h
  by_cases hlen : sets.length ≠ costs.length
  · rw [if_pos hlen] at h
    exact absurd h (by simp)
  · rw [if_neg hlen] at h
    have hp := Except.ok.inj h
    refine ⟨by rw [← hp], fun l _ => ⟨?_, ?_⟩, by rw [← hp], by rw [← hp]⟩
    · exact List.sorted_insertionSort (fun a c => a ≤ c) l
    · exact List.perm_insertionSort (fun a c => a ≤ c) l

/-- Witness for C10 at a concrete unsorted instance. -/
theorem C10_construction_sorts_sets_witness :
    mkSPProblem 3 [[2, 0], [1]] [1, 2] 2
        = Except.ok { rows := 3, sets := [[0, 2], [1]], costs := [1, 2], penalty := 3 }
    ∧ (∀ l ∈ ([[2, 0], [1]] : List (List Nat)),
        List.Sorted (fun a c => a ≤ c) (sortAsc l) ∧ (sortAsc l).Perm l) := by
  have hmk : mkSPProblem 3 [[2, 0], [1]] [1, 2] 2
      = Except.ok { rows := 3, sets := [[0, 2], [1]], costs := [1, 2], penalty := 3 } := by
    unfold mkSPProblem
    norm_num [sortAsc, avg, List.insertionSort, List.orderedInsert]
  exact ⟨hmk, (C10_construction_sorts_sets 3 [[2, 0], [1]] [1, 2] 2 _ hmk).2.1⟩

/-! ### The generic two point crossover `tpx` -/

lemma tpxLoop_length (a b : List Bool) (x n : Nat) (cnt : Nat) :
    ∀ (i0 : Nat) (ab ba : List Bool),
      (tpxLoop a b x n i0 cnt ab ba).1.length = ab.length
        ∧ (tpxLoop a b x n i0 cnt ab ba).2.length = ba.length := by
  induction cnt with
  | zero => intro i0 ab ba; exact ⟨rfl, rfl⟩
  | succ cnt ih =>
    intro i0 ab ba
    simp only [tpxLoop]
    refine ⟨?_, ?_⟩
    · rw [(ih (i0 + 1) _ _).1, length_bitSet]
    · rw [(ih (i0 + 1) _ _).2, length_bitSet]

lemma tpxLoop_getD (a b : List Bool) (x n : Nat) (hn : 0 < n) (cnt : Nat) :
    ∀ (i0 : Nat) (ab ba : List Bool), ab.length = n → ba.length = n →
      ∀ j, j < n →
      ((tpxLoop a b x n i0 cnt ab ba).1.getD j false
          = if ∃ t, t < cnt ∧ (x + (i0 + t)) % n = j then bitGet b j
            else ab.getD j false)
      ∧ ((tpxLoop a b x n i0 cnt ab ba).2.getD j false
          = if ∃ t, t < cnt ∧ (x + (i0 + t)) % n = j then bitGet a j
            else ba.getD j false) := by
  induction cnt with
  | zero =>
    intro i0 ab ba hab hba j hj
    simp [tpxLoop]
  | succ cnt ih =>
    intro i0 ab ba hab hba j hj
    simp only [tpxLoop]
    have hblt : (x + i0) % n < n := Nat.mod_lt _ hn
    obtain ⟨h1, h2⟩ := ih (i0 + 1)
      (bitSet ab ((x + i0) % n) (bitGet b ((x + i0) % n)))
      (bitSet ba ((x + i0) % n) (bitGet a ((x + i0) % n)))
      (by rw [length_bitSet, hab]) (by rw [length_bitSet, hba]) j hj
    rw [h1, h2]
    by_cases hbit : (x + i0) % n = j
    · subst hbit
      have hex : ∃ t, t < cnt + 1 ∧ (x + (i0 + t)) % n = (x + i0) % n :=
        ⟨0, Nat.succ_pos _, rfl⟩
      rw [if_pos hex, if_pos hex]
      constructor
      · by_cases htail : ∃ t, t < cnt ∧ (x + (i0 + 1 + t)) % n = (x + i0) % n
        · rw [if_pos htail]
        · rw [if_neg htail,
            getD_bitSet_self _ _ _ (by rw [hab]; exact hblt)]
      · by_cases htail : ∃ t, t < cnt ∧ (x + (i0 + 1 + t)) % n = (x + i0) % n
        · rw [if_pos htail]
        · rw [if_neg htail,
            getD_bitSet_self _ _ _ (by rw [hba]; exact hblt)]
    · have hiff : (∃ t, t < cnt + 1 ∧ (x + (i0 + t)) % n = j)
          ↔ (∃ t, t < cnt ∧ (x + (i0 + 1 + t)) % n = j) := by
        constructor
        · rintro ⟨t, ht, hv⟩
          match t with
          | 0 => exact absurd (by simpa using hv) hbit
          | t + 1 =>
            refine ⟨t, by omega, ?_⟩
            have harg : x + (i0 + 1 + t) = x + (i0 + (t + 1)) := by omega
            rw [harg, hv]
        · rintro ⟨t, ht, hv⟩
          refine ⟨t + 1, by omega, ?_⟩
          have harg : x + (i0 + (t + 1)) = x + (i0 + 1 + t) := by omega
          rw [harg, hv]
      rw [getD_bitSet_ne _ _ _ _ (fun hh => hbit hh.symm),
        getD_bitSet_ne _ _ _ _ (fun hh => hbit hh.symm)]
      constructor
      · by_cases htail : ∃ t, t < cnt ∧ (x + (i0 + 1 + t)) % n = j
        · rw [if_pos htail, if_pos (hiff.mpr htail)]
        · rw [if_neg htail, if_neg (fun hh => htail (hiff.mp hh))]
      · by_cases htail : ∃ t, t < cnt ∧ (x + (i0 + 1 + t)) % n = j
        · rw [if_pos htail, if_pos (hiff.mpr htail)]
        · rw [if_neg htail, if_neg (fun hh => htail (hiff.mp hh))]

/-- Every index below `n` is hit by the wrap-around window of length `n`. -/
lemma exists_window_hit (n x j : Nat) (hj : j < n) :
    ∃ t, t < n ∧ (x + (0 + t)) % n = j := by
  have hn : 0 < n := Nat.lt_of_le_of_lt (Nat.zero_le j) hj
  have hy : x % n < n := Nat.mod_lt _ hn
  by_cases hle : x % n ≤ j
  · refine ⟨j - x % n, by omega, ?_⟩
    rw [Nat.zero_add, Nat.add_mod, Nat.mod_eq_of_lt (show j - x % n < n by omega),
      show x % n + (j - x % n) = j by omega, Nat.mod_eq_of_lt hj]
  · refine ⟨j + n - x % n, by omega, ?_⟩
    rw [Nat.zero_add, Nat.add_mod, Nat.mod_eq_of_lt (show j + n - x % n < n by omega),
      show x % n + (j + n - x % n) = j + n by omega, Nat.add_mod_right,
      Nat.mod_eq_of_lt hj]

/-- C9: for equal-size parents, `tpx` preserves the sizes for every crossover
factor, and with `xFactor = 1.0` the two children are exact swaps of the
inputs, for every random start offset. -/
theorem C9_tpx_swap_and_sizes (a b : List Bool) (h : a.length = b.length)
    (g : Rng) :
    ((tpx a b 1 g).1 = b ∧ (tpx a b 1 g).2 = a)
    ∧ ∀ xF : ℚ, (tpx a b xF g).1.length = a.length
        ∧ (tpx a b xF g).2.length = b.length := by
  have hsizes : ∀ xF : ℚ, (tpx a b xF g).1.length = a.length
      ∧ (tpx a b xF g).2.length = b.length := by
    intro xF
    unfold tpx
    exact tpxLoop_length a b _ a.length _ 0 a b
  refine ⟨?_, hsizes⟩
  by_cases hn : a.length = 0
  · have ha : a = [] := List.length_eq_zero.mp hn
    have hb : b = [] := List.length_eq_zero.mp (by omega)
    subst ha hb
    have hcnt : Nat.ceil (((([] : List Bool).length : Nat) : ℚ) * 1) = 0 := by
      norm_num
    unfold tpx
    rw [hcnt]
    exact ⟨rfl, rfl⟩
  · have hn0 : 0 < a.length := Nat.pos_of_ne_zero hn
    have hcnt : Nat.ceil ((a.length : ℚ) * 1) = a.length := by
      rw [mul_one, Nat.ceil_natCast]
    have hcov := tpxLoop_getD a b ((g.nextInt 0 a.length).1) a.length hn0
      (Nat.ceil ((a.length : ℚ) * 1)) 0 a b rfl h.symm
    constructor
    · apply list_ext_getD _ _ (by rw [(hsizes 1).1, h])
      intro j hj
      have hj2 : j < a.length := by rwa [(hsizes 1).1] at hj
      have hhit : ∃ t, t < Nat.ceil ((a.length : ℚ) * 1)
          ∧ ((g.nextInt 0 a.length).1 + (0 + t)) % a.length = j := by
        rw [hcnt]
        exact exists_window_hit a.length _ j hj2
      have := (hcov j hj2).1
      unfold tpx
      rw [this, if_pos hhit]
      rfl
    · apply list_ext_getD _ _ (by rw [(hsizes 1).2, ← h])
      intro j hj
      have hj2 : j < a.length := by rwa [(hsizes 1).2, ← h] at hj
      have hhit : ∃ t, t < Nat.ceil ((a.length : ℚ) * 1)
          ∧ ((g.nextInt 0 a.length).1 + (0 + t)) % a.length = j := by
        rw [hcnt]
        exact exists_window_hit a.length _ j hj2
      have := (hcov j hj2).2
      unfold tpx
      rw [this, if_pos hhit]
      rfl

/-- Witness for C9 at concrete four-bit parents. -/
theorem C9_tpx_swap_and_sizes_witness :
    ([true, false, true, false] : List Bool).length
        = ([false, true, true, true] : List Bool).length
    ∧ (tpx [true, false, true, false] [false, true, true, true] 1
        ⟨fun _ => 2, 0, fun _ => 1, 0⟩).1 = [false, true, true, true] := by
  refine ⟨rfl, ?_⟩
  exact (C9_tpx_swap_and_sizes [true, false, true, false] [false, true, true, true]
    rfl ⟨fun _ => 2, 0, fun _ => 1, 0⟩).1.1

/-! ### Row selection (`selectRow`, strategy `Max`) -/

lemma pushRow_length (R : List (List Nat)) (i row : Nat) :
    (pushRow R i row).length = R.length := List.length_set R row _

lemma fillSet_length (i : Nat) (sset : List Nat) :
    ∀ R : List (List Nat), (fillSet R i sset).length = R.length := by
  induction sset with
  | nil => intro R; rfl
  | cons r rest ih =>
    intro R
    show (fillSet (pushRow R i r) i rest).length = R.length
    rw [ih (pushRow R i r), pushRow_length]

lemma buildRiAux_length (ssets : List (List Nat)) :
    ∀ (i : Nat) (R : List (List Nat)), (buildRiAux i ssets R).length = R.length := by
  induction ssets with
  | nil => intro i R; rfl
  | cons sset rest ih =>
    intro i R
    show (buildRiAux (i + 1) rest (fillSet R i sset)).length = R.length
    rw [ih (i + 1) (fillSet R i sset), fillSet_length]

lemma Ri_length (p : SPProblem) : p.Ri.length = p.rows := by
  unfold SPProblem.Ri
  rw [buildRiAux_length, List.length_replicate]

/-- Characterization of the `Max` fold: it either keeps the accumulator
(when nothing is strictly longer) or returns the first selected-cover list
strictly longer than everything before it, which is maximal overall. -/
lemma maxFold_char (s : List Bool) (rs : List (List Nat)) :
    ∀ acc : List Nat,
      (maxFold s rs acc = acc ∧ ∀ j, j < rs.length →
          (riSelected s (rs.getD j [])).length ≤ acc.length)
      ∨ (∃ k, k < rs.length ∧ maxFold s rs acc = riSelected s (rs.getD k [])
          ∧ acc.length < (riSelected s (rs.getD k [])).length
          ∧ (∀ j, j < rs.length →
              (riSelected s (rs.getD j [])).length
                ≤ (riSelected s (rs.getD k [])).length)
          ∧ ∀ j, j < k →
              (riSelected s (rs.getD j [])).length
                < (riSelected s (rs.getD k [])).length) := by
  induction rs with
  | nil =>
    intro acc
    left
    exact ⟨rfl, fun j hj => absurd hj (by simp)⟩
  | cons row rest ih =>
    intro acc
    have hstep : maxFold s (row :: rest) acc
        = maxFold s rest
            (if acc.length < (riSelected s row).length then riSelected s row
             else acc) := rfl
    by_cases hcase : acc.length < (riSelected s row).length
    · rw [if_pos hcase] at hstep
      rcases ih (riSelected s row) with ⟨heq, hle⟩ | ⟨k, hk, heq, hacc, hmax, hfirst⟩
      · right
        refine ⟨0, by simp, by rw [hstep, heq]; rfl, by simpa using hcase,
          ?_, fun j hj => absurd hj (by omega)⟩
        intro j hj
        match j with
        | 0 => simp
        | j + 1 =>
          have := hle j (by simpa using hj)
          simpa using this
      · right
        refine ⟨k + 1, by simpa using hk, by rw [hstep]; simpa using heq,
          ?_, ?_, ?_⟩
        · simpa using lt_trans hcase hacc
        · intro j hj
          match j with
          | 0 => simpa using le_of_lt (lt_of_lt_of_le hacc (le_refl _))
          | j + 1 =>
            have := hmax j (by simpa using hj)
            simpa using this
        · intro j hj
          match j with
          | 0 => simpa using hacc
          | j + 1 =>
            have := hfirst j (by omega)
            simpa using this
    · rw [if_neg hcase] at hstep
      rcases ih acc with ⟨heq, hle⟩ | ⟨k, hk, heq, hacc, hmax, hfirst⟩
      · left
        refine ⟨by rw [hstep, heq], ?_⟩
        intro j hj
        match j with
        | 0 => simpa using Nat.le_of_not_lt hcase
        | j + 1 =>
          have := hle j (by simpa using hj)
          simpa using this
      · right
        refine ⟨k + 1, by simpa using hk, by rw [hstep]; simpa using heq,
          hacc, ?_, ?_⟩
        · intro j hj
          match j with
          | 0 =>
            have h1 : (riSelected s row).length ≤ acc.length := Nat.le_of_not_lt hcase
            simpa using le_trans h1 (le_of_lt hacc)
          | j + 1 =>
            have := hmax j (by simpa using hj)
            simpa using this
        · intro j hj
          match j with
          | 0 =>
            have h1 : (riSelected s row).length ≤ acc.length := Nat.le_of_not_lt hcase
            simpa using lt_of_le_of_lt h1 hacc
          | j + 1 =>
            have := hfirst j (by omega)
            simpa using this

/-- C7: with the `Max` strategy, `selectRow` returns the selected covering
list of the first row (in `Ri` order) whose selected-cover count attains the
maximum over all rows; earlier rows win ties. -/
theorem C7_selectRow_max_first_argmax (p : SPProblem) (s : List Bool) (g : Rng)
    (h : 0 < p.rows) :
    ∃ k, k < p.rows
      ∧ (p.selectRow s RowSelectionStrategy.Max g).1
          = riSelected s (p.Ri.getD k [])
      ∧ (∀ j, j < p.rows →
          (riSelected s (p.Ri.getD j [])).length
            ≤ (riSelected s (p.Ri.getD k [])).length)
      ∧ ∀ j, j < k →
          (riSelected s (p.Ri.getD j [])).length
            < (riSelected s (p.Ri.getD k [])).length := by
  have hlen : p.Ri.length = p.rows := Ri_length p
  have hsel : (p.selectRow s RowSelectionStrategy.Max g).1 = maxFold s p.Ri [] := rfl
  rcases maxFold_char s p.Ri [] with ⟨heq, hle⟩ | ⟨k, hk, heq, _, hmax, hfirst⟩
  · refine ⟨0, h, ?_, ?_, fun j hj => absurd hj (by omega)⟩
    · have h0 := hle 0 (by omega)
      have hz : riSelected s (p.Ri.getD 0 []) = [] :=
        List.length_eq_zero.mp (by simpa using h0)
      rw [hsel, heq, hz]
    · intro j hj
      have hj2 := hle j (by omega)
      have h0 := hle 0 (by omega)
      simp only [List.length_nil] at hj2 h0
      omega
  · exact ⟨k, by omega, by rw [hsel, heq], fun j hj => hmax j (by omega),
      hfirst⟩

/-- Witness for C7 at the spec's concrete instance. -/
theorem C7_selectRow_max_first_argmax_witness :
    ∃ k, k < exP.rows
      ∧ (exP.selectRow [true, false, false, true] RowSelectionStrategy.Max
          ⟨fun _ => 0, 0, fun _ => 0, 0⟩).1
          = riSelected [true, false, false, true] (exP.Ri.getD k [])
      ∧ (∀ j, j < exP.rows →
          (riSelected [true, false, false, true] (exP.Ri.getD j [])).length
            ≤ (riSelected [true, false, false, true] (exP.Ri.getD k [])).length)
      ∧ ∀ j, j < k →
          (riSelected [true, false, false, true] (exP.Ri.getD j [])).length
            < (riSelected [true, false, false, true] (exP.Ri.getD k [])).length :=
  C7_selectRow_max_first_argmax exP [true, false, false, true]
    ⟨fun _ => 0, 0, fun _ => 0, 0⟩ (by decide)

/-! ### Local search (`improve`) -/

lemma bestLoop_step (p : SPProblem) (c : Nat) (rest : List Nat) (s : List Bool)
    (bc : ℚ) (b : Option Nat) (i : Nat) :
    bestLoop p (c :: rest) s bc b i
      = if p.value (bitFlip s c) < bc
        then bestLoop p rest s (p.value (bitFlip s c)) (some i) (i + 1)
        else bestLoop p rest s bc b (i + 1) := by
  simp only [bestLoop, bitFlip_bitFlip]

lemma firstLoop_step (p : SPProblem) (bc : ℚ) (c : Nat) (rest : List Nat)
    (s : List Bool) :
    firstLoop p bc (c :: rest) s
      = if p.value (bitFlip s c) < bc then some (bitFlip s c)
        else firstLoop p bc rest s := by
  simp only [firstLoop, bitFlip_bitFlip]

/-- The `Best` loop restores the solution, and returns either the unchanged
accumulator (no strict improvement) or the position and value of a flip that
is strictly better than `bc` and minimal among all candidate flips. -/
lemma bestLoop_char (p : SPProblem) (s : List Bool) (cols : List Nat) :
    ∀ (bc : ℚ) (b : Option Nat) (i : Nat),
      (bestLoop p cols s bc b i).1 = s
      ∧ ((∀ c ∈ cols, ¬ p.value (bitFlip s c) < bc) →
          (bestLoop p cols s bc b i).2.1 = bc
            ∧ (bestLoop p cols s bc b i).2.2 = b)
      ∧ ((∃ c ∈ cols, p.value (bitFlip s c) < bc) →
          ∃ k, k < cols.length
            ∧ (bestLoop p cols s bc b i).2.2 = some (i + k)
            ∧ (bestLoop p cols s bc b i).2.1
                = p.value (bitFlip s (cols.getD k 0))
            ∧ p.value (bitFlip s (cols.getD k 0)) < bc
            ∧ ∀ j, j < cols.length →
                p.value (bitFlip s (cols.getD k 0))
                  ≤ p.value (bitFlip s (cols.getD j 0))) := by
  induction cols with
  | nil =>
    intro bc b i
    refine ⟨rfl, fun _ => ⟨rfl, rfl⟩, fun h => ?_⟩
    obtain ⟨c, hc, _⟩ := h
    exact absurd hc (by simp)
  | cons c rest ih =>
    intro bc b i
    rw [bestLoop_step]
    by_cases hlt : p.value (bitFlip s c) < bc
    · rw [if_pos hlt]
      obtain ⟨ih1, ih2, ih3⟩ := ih (p.value (bitFlip s c)) (some i) (i + 1)
      refine ⟨ih1, fun hall => absurd hlt (hall c (by simp)), fun _ => ?_⟩
      by_cases hrest : ∃ d ∈ rest, p.value (bitFlip s d) < p.value (bitFlip s c)
      · obtain ⟨k, hk, hbest, hval, hv, hmin⟩ := ih3 hrest
        refine ⟨k + 1, by simpa using hk, ?_, by simpa using hval,
          lt_trans (by simpa using hv) hlt, ?_⟩
        · rw [hbest]
          congr 1
          omega
        · intro j hj
          match j with
          | 0 => simpa using le_of_lt (by simpa using hv)
          | j + 1 =>
            have := hmin j (by simpa using hj)
            simpa using this
      · have hall : ∀ d ∈ rest, ¬ p.value (bitFlip s d) < p.value (bitFlip s c) :=
          fun d hd hcon => hrest ⟨d, hd, hcon⟩
        obtain ⟨hbc, hbb⟩ := ih2 hall
        refine ⟨0, by simp, ?_, by simpa using hbc, by simpa using hlt, ?_⟩
        · rw [hbb]
          simp
        · intro j hj
          match j with
          | 0 => simp
          | j + 1 =>
            have hj2 : j < rest.length := by simpa using hj
            have hmem : rest.getD j 0 ∈ rest := by
              rw [getD_lt _ _ _ hj2]
              exact List.getElem_mem hj2
            have hle := not_lt.mp (hall (rest.getD j 0) hmem)
            simpa using hle
    · rw [if_neg hlt]
      obtain ⟨ih1, ih2, ih3⟩ := ih bc b (i + 1)
      refine ⟨ih1, fun hall => ih2 (fun d hd => hall d (List.mem_cons_of_mem c hd)),
        fun hex => ?_⟩
      obtain ⟨d, hd, hdlt⟩ := hex
      rcases List.mem_cons.mp hd with hdc | hdr
      · exact absurd (hdc ▸ hdlt) hlt
      · obtain ⟨k, hk, hbest, hval, hv, hmin⟩ := ih3 ⟨d, hdr, hdlt⟩
        refine ⟨k + 1, by simpa using hk, ?_, by simpa using hval,
          by simpa using hv, ?_⟩
        · rw [hbest]
          congr 1
          omega
        · intro j hj
          match j with
          | 0 =>
            have hle := not_lt.mp hlt
            simpa using le_trans (le_of_lt (by simpa using hv)) hle
          | j + 1 =>
            have := hmin j (by simpa using hj)
            simpa using this

/-- The `First` loop returns `none` iff no candidate flip strictly improves,
and any returned solution is a strictly improving flip. -/
lemma firstLoop_char (p : SPProblem) (bc : ℚ) (cols : List Nat) (s : List Bool) :
    ((∀ c ∈ cols, ¬ p.value (bitFlip s c) < bc) → firstLoop p bc cols s = none)
    ∧ ∀ t, firstLoop p bc cols s = some t →
        ∃ c ∈ cols, t = bitFlip s c ∧ p.value (bitFlip s c) < bc := by
  induction cols with
  | nil => exact ⟨fun _ => rfl, fun t ht => by simp [firstLoop] at ht⟩
  | cons c rest ih =>
    rw [firstLoop_step]
    by_cases hlt : p.value (bitFlip s c) < bc
    · rw [if_pos hlt]
      refine ⟨fun hall => absurd hlt (hall c (by simp)), fun t ht => ?_⟩
      exact ⟨c, by simp, (Option.some.inj ht).symm, hlt⟩
    · rw [if_neg hlt]
      refine ⟨fun hall => ih.1 (fun d hd => hall d (List.mem_cons_of_mem c hd)),
        fun t ht => ?_⟩
      obtain ⟨d, hd, ht2, hlt2⟩ := ih.2 t ht
      exact ⟨d, List.mem_cons_of_mem c hd, ht2, hlt2⟩

lemma improve_best_eq (p : SPProblem) (s : List Bool) (rss : RowSelectionStrategy)
    (g : Rng) :
    (p.improve s ImprovementStrategy.Best rss g).1
      = match (bestLoop p ((p.selectRow s rss g).1) s (p.value s) none 0).2.2 with
        | some k =>
            bitFlip ((bestLoop p ((p.selectRow s rss g).1) s (p.value s) none 0).1)
              (((p.selectRow s rss g).1).getD k 0)
        | none => s := by
  show (match bestLoop p ((p.selectRow s rss g).1) s (p.value s) none 0 with
    | (newS, _, some k) =>
        (bitFlip newS (((p.selectRow s rss g).1).getD k 0), (p.selectRow s rss g).2)
    | (_, _, none) => (s, (p.selectRow s rss g).2)).1 = _
  generalize bestLoop p ((p.selectRow s rss g).1) s (p.value s) none 0 = res
  obtain ⟨newS, bc2, best⟩ := res
  cases best <;> rfl

lemma improve_first_eq (p : SPProblem) (s : List Bool) (rss : RowSelectionStrategy)
    (g : Rng) :
    (p.improve s ImprovementStrategy.First rss g).1
      = match firstLoop p (p.value s) ((p.selectRow s rss g).1) s with
        | some t => t
        | none => s := by
  show (match firstLoop p (p.value s) ((p.selectRow s rss g).1) s with
    | some t => (t, (p.selectRow s rss g).2)
    | none => (s, (p.selectRow s rss g).2)).1 = _
  generalize firstLoop p (p.value s) ((p.selectRow s rss g).1) s = res
  cases res <;> rfl

/-- Core monotonicity: one `improve` pass never worsens fitness. -/
lemma improve_value_le (p : SPProblem) (s : List Bool)
    (strat : ImprovementStrategy) (rss : RowSelectionStrategy) (g : Rng) :
    p.value (p.improve s strat rss g).1 ≤ p.value s := by
  cases strat
  case First =>
    rw [improve_first_eq]
    obtain ⟨hnone, hsome⟩ := firstLoop_char p (p.value s) ((p.selectRow s rss g).1) s
    generalize hres : firstLoop p (p.value s) ((p.selectRow s rss g).1) s = res
    cases res with
    | none => simp
    | some t =>
      obtain ⟨c, _, ht, hlt⟩ := hsome t hres
      simpa [ht] using le_of_lt hlt
  case Best =>
    rw [improve_best_eq]
    obtain ⟨h1, h2, h3⟩ :=
      bestLoop_char p s ((p.selectRow s rss g).1) (p.value s) none 0
    by_cases hex : ∃ c ∈ (p.selectRow s rss g).1,
        p.value (bitFlip s c) < p.value s
    · obtain ⟨k, hk, hbest, hval, hlt, _⟩ := h3 hex
      rw [hbest]
      simp only [zero_add] at hlt ⊢
      rw [h1]
      exact le_of_lt hlt
    · have hall : ∀ c ∈ (p.selectRow s rss g).1,
          ¬ p.value (bitFlip s c) < p.value s :=
        fun c hc hcon => hex ⟨c, hc, hcon⟩
      obtain ⟨_, hbb⟩ := h2 hall
      rw [hbb]

/-- C3: `improve` never worsens fitness for any strategy pair; with `Best`,
when some flip of one column in the selected row's covering list strictly
lowers the value, the result is `s` with a minimal-value such flip applied;
when no flip strictly improves, both `Best` and `First` return `s` itself. -/
theorem C3_improve_best_first (p : SPProblem) (s : List Bool)
    (strat : ImprovementStrategy) (rss : RowSelectionStrategy) (g : Rng) :
    p.value (p.improve s strat rss g).1 ≤ p.value s
    ∧ ((∃ c ∈ (p.selectRow s rss g).1, p.value (bitFlip s c) < p.value s) →
        ∃ k, k < ((p.selectRow s rss g).1).length
          ∧ (p.improve s ImprovementStrategy.Best rss g).1
              = bitFlip s (((p.selectRow s rss g).1).getD k 0)
          ∧ p.value (bitFlip s (((p.selectRow s rss g).1).getD k 0)) < p.value s
          ∧ ∀ j, j < ((p.selectRow s rss g).1).length →
              p.value (bitFlip s (((p.selectRow s rss g).1).getD k 0))
                ≤ p.value (bitFlip s (((p.selectRow s rss g).1).getD j 0)))
    ∧ ((∀ c ∈ (p.selectRow s rss g).1, ¬ p.value (bitFlip s c) < p.value s) →
        (p.improve s ImprovementStrategy.Best rss g).1 = s
          ∧ (p.improve s ImprovementStrategy.First rss g).1 = s) := by
  obtain ⟨h1, h2, h3⟩ :=
    bestLoop_char p s ((p.selectRow s rss g).1) (p.value s) none 0
  refine ⟨improve_value_le p s strat rss g, fun hex => ?_, fun hall => ⟨?_, ?_⟩⟩
  · obtain ⟨k, hk, hbest, hval, hlt, hmin⟩ := h3 hex
    refine ⟨k, hk, ?_, by simpa using hlt, fun j hj => by simpa using hmin j hj⟩
    rw [improve_best_eq, hbest]
    simp only [zero_add]
    rw [h1]
  · obtain ⟨_, hbb⟩ := h2 hall
    rw [improve_best_eq, hbb]
  · rw [improve_first_eq,
      (firstLoop_char p (p.value s) ((p.selectRow s rss g).1) s).1 hall]

/-- Witness for C3 at the spec's concrete instance. -/
theorem C3_improve_best_first_witness :
    exP.value (exP.improve [true, false, false, true] ImprovementStrategy.Best
        RowSelectionStrategy.Max ⟨fun _ => 0, 0, fun _ => 0, 0⟩).1
      ≤ exP.value [true, false, false, true] :=
  (C3_improve_best_first exP [true, false, false, true] ImprovementStrategy.Best
    RowSelectionStrategy.Max ⟨fun _ => 0, 0, fun _ => 0, 0⟩).1

/-! ### Feasibility (`validate`) -/

lemma markRows_none (rs : List Nat) :
    ∀ bs : List Bool, rs.Nodup → (∀ r ∈ rs, r < bs.length) →
      markRows bs rs = none → ∃ r ∈ rs, bitGet bs r = true := by
  induction rs with
  | nil => intro bs _ _ h; simp [markRows] at h
  | cons r rest ih =>
    intro bs hnd hbound h
    rw [markRows] at h
    by_cases hr : bitGet bs r
    · exact ⟨r, by simp, hr⟩
    · rw [if_neg hr] at h
      have hnd2 : rest.Nodup := hnd.of_cons
      have hb2 : ∀ r2 ∈ rest, r2 < (bitSet bs r true).length := by
        intro r2 hr2
        rw [length_bitSet]
        exact hbound r2 (List.mem_cons_of_mem r hr2)
      obtain ⟨r2, hr2, hget⟩ := ih (bitSet bs r true) hnd2 hb2 h
      have hne : r2 ≠ r := by
        intro he
        exact (List.nodup_cons.mp hnd).1 (he ▸ hr2)
      rw [bitGet_set_ne bs r r2 true hne] at hget
      exact ⟨r2, List.mem_cons_of_mem r hr2, hget⟩

lemma markRows_some (rs : List Nat) :
    ∀ (bs bs2 : List Bool), rs.Nodup → (∀ r ∈ rs, r < bs.length) →
      markRows bs rs = some bs2 →
      (∀ r ∈ rs, bitGet bs r = false)
      ∧ bs2.length = bs.length
      ∧ ∀ q, bitGet bs2 q = (bitGet bs q || decide (q ∈ rs)) := by
  induction rs with
  | nil =>
    intro bs bs2 _ _ h
    rw [markRows] at h
    obtain rfl := Option.some.inj h
    exact ⟨by simp, rfl, fun q => by simp⟩
  | cons r rest ih =>
    intro bs bs2 hnd hbound h
    rw [markRows] at h
    by_cases hr : bitGet bs r
    · rw [if_pos hr] at h
      exact absurd h (by simp)
    · rw [if_neg hr] at h
      have hnd2 : rest.Nodup := hnd.of_cons
      have hrmem : r ∉ rest := (List.nodup_cons.mp hnd).1
      have hb2 : ∀ r2 ∈ rest, r2 < (bitSet bs r true).length := by
        intro r2 hr2
        rw [length_bitSet]
        exact hbound r2 (List.mem_cons_of_mem r hr2)
      obtain ⟨hfresh, hlen, hchar⟩ := ih (bitSet bs r true) bs2 hnd2 hb2 h
      refine ⟨?_, by rw [hlen, length_bitSet], ?_⟩
      · intro r2 hr2
        rcases List.mem_cons.mp hr2 with he | hm
        · exact he ▸ (Bool.not_eq_true _).mp hr
        · have hne : r2 ≠ r := fun he => hrmem (he ▸ hm)
          have := hfresh r2 hm
          rwa [bitGet_set_ne bs r r2 true hne] at this
      · intro q
        rw [hchar q]
        by_cases hq : q = r
        · subst hq
          rw [bitGet_set_self bs q true (hbound q (by simp))]
          simp
        · rw [bitGet_set_ne bs r q true hq]
          by_cases hm : q ∈ rest <;> simp [hm, hq]

lemma coverPart_zero_of_ge (s : List Bool) (q rows : Nat) (hq : rows ≤ q) :
    ∀ (ssets : List (List Nat)) (i : Nat),
      (∀ l ∈ ssets, ∀ r ∈ l, r < rows) → coverPart s q i ssets = 0 := by
  intro ssets
  induction ssets with
  | nil => intro i _; rfl
  | cons sset rest ih =>
    intro i hb
    rw [coverPart]
    have hnotin : ¬ (bitGet s i ∧ q ∈ sset) := by
      rintro ⟨_, hmem⟩
      exact absurd (hb sset (by simp) q hmem) (by omega)
    rw [if_neg hnotin, ih (i + 1) (fun l hl => hb l (List.mem_cons_of_mem _ hl))]

lemma validateAux_some (s : List Bool) (ssets : List (List Nat)) :
    ∀ (bs bs2 : List Bool) (i : Nat),
      (∀ l ∈ ssets, l.Nodup ∧ ∀ r ∈ l, r < bs.length) →
      validateAux s bs i ssets = some bs2 →
      bs2.length = bs.length
      ∧ (∀ q, bitGet bs2 q
          = (bitGet bs q || decide (0 < coverPart s q i ssets)))
      ∧ (∀ q, bitGet bs q = true → coverPart s q i ssets = 0)
      ∧ (∀ q, coverPart s q i ssets ≤ 1) := by
  induction ssets with
  | nil =>
    intro bs bs2 i _ h
    rw [validateAux] at h
    obtain rfl := Option.some.inj h
    exact ⟨rfl, fun q => by simp [coverPart], fun q _ => rfl, fun q => by simp [coverPart]⟩
  | cons sset rest ih =>
    intro bs bs2 i hwf h
    rw [validateAux] at h
    have hhead := hwf sset (by simp)
    have htail : ∀ l ∈ rest, l.Nodup ∧ ∀ r ∈ l, r < bs.length :=
      fun l hl => hwf l (List.mem_cons_of_mem _ hl)
    by_cases hsel : bitGet s i
    · rw [if_pos hsel] at h
      cases hmk : markRows bs sset with
      | none => rw [hmk] at h; exact absurd h (by simp)
      | some bsm =>
        rw [hmk] at h
        obtain ⟨hfresh, hmlen, hmchar⟩ := markRows_some sset bs bsm hhead.1 hhead.2 hmk
        have htail2 : ∀ l ∈ rest, l.Nodup ∧ ∀ r ∈ l, r < bsm.length := by
          intro l hl
          rw [hmlen]
          exact htail l hl
        obtain ⟨hlen, hchar, hmarked, hle⟩ := ih bsm bs2 (i + 1) htail2 h
        have hcov : ∀ q, coverPart s q i (sset :: rest)
            = (if q ∈ sset then 1 else 0) + coverPart s q (i + 1) rest := by
          intro q
          rw [coverPart]
          by_cases hq : q ∈ sset <;> simp [hsel, hq]
        refine ⟨by rw [hlen, hmlen], ?_, ?_, ?_⟩
        · intro q
          rw [hchar q, hmchar q, hcov q]
          by_cases hq : q ∈ sset
          · have hm0 : coverPart s q (i + 1) rest = 0 := by
              apply hmarked
              rw [hmchar q]
              simp [hq]
            simp [hq, hm0]
          · by_cases hc : 0 < coverPart s q (i + 1) rest <;> simp [hq, hc]
        · intro q hq
          have hq2 : q ∉ sset := by
            intro hmem
            exact absurd (hfresh q hmem) (by simp [hq])
          have hm : bitGet bsm q = true := by rw [hmchar q, hq]; simp
          rw [hcov q, if_neg hq2, hmarked q hm]
        · intro q
          rw [hcov q]
          by_cases hq : q ∈ sset
          · have hm0 : coverPart s q (i + 1) rest = 0 := by
              apply hmarked
              rw [hmchar q]
              simp [hq]
            simp [hq, hm0]
          · rw [if_neg hq]
            simpa using hle q
    · rw [if_neg hsel] at h
      obtain ⟨hlen, hchar, hmarked, hle⟩ := ih bs bs2 (i + 1) htail h
      have hcov : ∀ q, coverPart s q i (sset :: rest)
          = coverPart s q (i + 1) rest := by
        intro q
        rw [coverPart, if_neg (by simp [hsel])]
        omega
      exact ⟨hlen, fun q => by rw [hchar q, hcov q],
        fun q hq => by rw [hcov q]; exact hmarked q hq,
        fun q => by rw [hcov q]; exact hle q⟩

lemma validateAux_none (s : List Bool) (ssets : List (List Nat)) :
    ∀ (bs : List Bool) (i : Nat),
      (∀ l ∈ ssets, l.Nodup ∧ ∀ r ∈ l, r < bs.length) →
      validateAux s bs i ssets = none →
      ∃ q, 2 ≤ (if bitGet bs q then 1 else 0) + coverPart s q i ssets := by
  induction ssets with
  | nil => intro bs i _ h; simp [validateAux] at h
  | cons sset rest ih =>
    intro bs i hwf h
    rw [validateAux] at h
    have hhead := hwf sset (by simp)
    have htail : ∀ l ∈ rest, l.Nodup ∧ ∀ r ∈ l, r < bs.length :=
      fun l hl => hwf l (List.mem_cons_of_mem _ hl)
    by_cases hsel : bitGet s i
    · rw [if_pos hsel] at h
      cases hmk : markRows bs sset with
      | none =>
        obtain ⟨r, hr, hget⟩ := markRows_none sset bs hhead.1 hhead.2 hmk
        refine ⟨r, ?_⟩
        have hhd : coverPart s r i (sset :: rest)
            = 1 + coverPart s r (i + 1) rest := by
          rw [coverPart, if_pos ⟨hsel, hr⟩]
        rw [hhd, hget]
        have hone : (if (true : Bool) = true then 1 else 0) = 1 := rfl
        rw [hone]
        omega
      | some bsm =>
        rw [hmk] at h
        obtain ⟨hfresh, hmlen, hmchar⟩ := markRows_some sset bs bsm hhead.1 hhead.2 hmk
        have htail2 : ∀ l ∈ rest, l.Nodup ∧ ∀ r ∈ l, r < bsm.length := by
          intro l hl
          rw [hmlen]
          exact htail l hl
        obtain ⟨q, hq⟩ := ih bsm (i + 1) htail2 h
        refine ⟨q, ?_⟩
        rw [hmchar q] at hq
        by_cases hmem : q ∈ sset
        · have hhd : coverPart s q i (sset :: rest)
              = 1 + coverPart s q (i + 1) rest := by
            rw [coverPart, if_pos ⟨hsel, hmem⟩]
          rw [hhd]
          have hq2 : 2 ≤ 1 + coverPart s q (i + 1) rest := by
            have hb : (bitGet bs q || decide (q ∈ sset)) = true := by
              simp [hmem]
            rw [hb] at hq
            simpa using hq
          by_cases hbq : bitGet bs q = true
          · rw [if_pos hbq]
            omega
          · rw [if_neg hbq]
            omega
        · have hhd : coverPart s q i (sset :: rest)
              = coverPart s q (i + 1) rest := by
            rw [coverPart, if_neg (by rintro ⟨_, hm⟩; exact hmem hm)]
            omega
          rw [hhd]
          have hb : (bitGet bs q || decide (q ∈ sset)) = bitGet bs q := by
            simp [hmem]
          rw [hb] at hq
          exact hq
    · rw [if_neg hsel] at h
      obtain ⟨q, hq⟩ := ih bs (i + 1) htail h
      refine ⟨q, ?_⟩
      have hhd : coverPart s q i (sset :: rest)
          = coverPart s q (i + 1) rest := by
        rw [coverPart, if_neg (by simp [hsel])]
        omega
      rw [hhd]
      exact hq

lemma bitAll_iff (bs : List Bool) :
    bitAll bs = true ↔ ∀ q, q < bs.length → bitGet bs q = true := by
  unfold bitAll
  rw [List.all_eq_true]
  constructor
  · intro h q hq
    unfold bitGet
    rw [getD_lt _ _ _ hq]
    exact h _ (List.getElem_mem hq)
  · intro h x hx
    obtain ⟨q, hq, hv⟩ := List.mem_iff_getElem.mp hx
    have := h q hq
    unfold bitGet at this
    rw [getD_lt _ _ _ hq] at this
    rw [← hv]
    exact this

/-- The feasibility test characterized: `validate` accepts `s` iff every row
is covered by exactly one selected column. -/
lemma validate_iff_core (p : SPProblem) (s : List Bool) (hwf : p.wf) :
    p.validate s = true ↔ ∀ q, q < p.rows → coverPart s q 0 p.sets = 1 := by
  have hwf2 : ∀ l ∈ p.sets, l.Nodup
      ∧ ∀ r ∈ l, r < (List.replicate p.rows false).length := by
    intro l hl
    rw [List.length_replicate]
    exact hwf l hl
  have hbs0 : ∀ q, bitGet (List.replicate p.rows false) q = false := by
    intro q
    unfold bitGet
    rw [getD_replicate]
    simp
  unfold SPProblem.validate
  cases hres : validateAux s (List.replicate p.rows false) 0 p.sets with
  | none =>
    obtain ⟨q, hq⟩ := validateAux_none s p.sets _ 0 hwf2 hres
    rw [hbs0 q] at hq
    have hzero : (if (false : Bool) = true then 1 else 0) = 0 := rfl
    rw [hzero] at hq
    constructor
    · intro h
      exact absurd h (by simp)
    · intro hcov
      exfalso
      by_cases hqr : q < p.rows
      · have := hcov q hqr
        omega
      · have h0 : coverPart s q 0 p.sets = 0 :=
          coverPart_zero_of_ge s q p.rows (by omega) p.sets 0
            (fun l hl => (hwf l hl).2)
        omega
  | some bs2 =>
    obtain ⟨hlen, hchar, _, hle⟩ := validateAux_some s p.sets _ bs2 0 hwf2 hres
    have hlen2 : bs2.length = p.rows := by rw [hlen, List.length_replicate]
    rw [bitAll_iff]
    constructor
    · intro h q hqr
      have := h q (by omega)
      rw [hchar q, hbs0 q, Bool.false_or] at this
      have hpos : 0 < coverPart s q 0 p.sets := of_decide_eq_true this
      have := hle q
      omega
    · intro hcov q hq
      rw [hchar q, hbs0 q, Bool.false_or]
      have : coverPart s q 0 p.sets = 1 := hcov q (by omega)
      simp [this]

/-- C2: `validate(s)` returns true iff every row index in `[0, rows)` is
covered by exactly one selected set of `s`. -/
theorem C2_validate_exact_cover (p : SPProblem) (s : List Bool) (hwf : p.wf) :
    p.validate s = true ↔ ∀ q, q < p.rows → coverPart s q 0 p.sets = 1 :=
  validate_iff_core p s hwf

/-- Witness for C2: the spec's concrete instance, solution selecting only the
full set `[0,1,2]` (feasible). -/
theorem C2_validate_exact_cover_witness :
    exP.wf
    ∧ exP.validate [false, false, false, true] = true
    ∧ (exP.validate [false, false, false, true] = true
        ↔ ∀ q, q < exP.rows → coverPart [false, false, false, true] q 0 exP.sets = 1) :=
  ⟨by decide, by decide, C2_validate_exact_cover exP [false, false, false, true] (by decide)⟩

/-! ### The fitness function (`value`) -/

lemma getD_pushRow_ne (R : List (List Nat)) (i row q : Nat) (h : q ≠ row) :
    (pushRow R i row).getD q [] = R.getD q [] := getD_set_ne R row q _ [] h

lemma getD_pushRow_self (R : List (List Nat)) (i row : Nat) (h : row < R.length) :
    (pushRow R i row).getD row [] = R.getD row [] ++ [i] :=
  getD_set_self R row _ [] h

lemma getD_fillSet_not_mem (i : Nat) (sset : List Nat) :
    ∀ (R : List (List Nat)) (q : Nat), q ∉ sset →
      (fillSet R i sset).getD q [] = R.getD q [] := by
  induction sset with
  | nil => intro R q _; rfl
  | cons r rest ih =>
    intro R q hq
    have hne : q ≠ r := fun he => hq (he ▸ List.mem_cons_self r rest)
    have hrest : q ∉ rest := fun hm => hq (List.mem_cons_of_mem r hm)
    show (fillSet (pushRow R i r) i rest).getD q [] = R.getD q []
    rw [ih (pushRow R i r) q hrest, getD_pushRow_ne R i r q hne]

lemma getD_fillSet_mem (i : Nat) (sset : List Nat) :
    ∀ (R : List (List Nat)) (q : Nat), sset.Nodup → q ∈ sset → q < R.length →
      (fillSet R i sset).getD q [] = R.getD q [] ++ [i] := by
  induction sset with
  | nil => intro R q _ hq _; simp at hq
  | cons r rest ih =>
    intro R q hnd hq hlen
    show (fillSet (pushRow R i r) i rest).getD q [] = R.getD q [] ++ [i]
    by_cases he : q = r
    · subst he
      have hrest : q ∉ rest := (List.nodup_cons.mp hnd).1
      rw [getD_fillSet_not_mem i rest (pushRow R i q) q hrest,
        getD_pushRow_self R i q hlen]
    · have hm : q ∈ rest := by
        rcases List.mem_cons.mp hq with h1 | h1
        · exact absurd h1 he
        · exact h1
      rw [ih (pushRow R i r) q hnd.of_cons hm (by rw [pushRow_length]; exact hlen),
        getD_pushRow_ne R i r q he]

lemma getD_buildRiAux (ssets : List (List Nat)) :
    ∀ (R : List (List Nat)) (i q : Nat),
      (∀ l ∈ ssets, l.Nodup) → q < R.length →
      (buildRiAux i ssets R).getD q [] = R.getD q [] ++ coverIdx q i ssets := by
  induction ssets with
  | nil => intro R i q _ _; simp [buildRiAux, coverIdx]
  | cons sset rest ih =>
    intro R i q hnd hlen
    show (buildRiAux (i + 1) rest (fillSet R i sset)).getD q [] = _
    rw [ih (fillSet R i sset) (i + 1) q
      (fun l hl => hnd l (List.mem_cons_of_mem _ hl))
      (by rw [fillSet_length]; exact hlen)]
    by_cases hm : q ∈ sset
    · rw [getD_fillSet_mem i sset R q (hnd sset (by simp)) hm hlen]
      show _ = R.getD q [] ++ ((if q ∈ sset then [i] else []) ++ coverIdx q (i + 1) rest)
      rw [if_pos hm, List.append_assoc]
    · rw [getD_fillSet_not_mem i sset R q hm]
      show _ = R.getD q [] ++ ((if q ∈ sset then [i] else []) ++ coverIdx q (i + 1) rest)
      rw [if_neg hm, List.nil_append]

lemma countP_coverIdx (s : List Bool) (q : Nat) (ssets : List (List Nat)) :
    ∀ i : Nat,
      (coverIdx q i ssets).countP (fun j => bitGet s j) = coverPart s q i ssets := by
  induction ssets with
  | nil => intro i; rfl
  | cons sset rest ih =>
    intro i
    show ((if q ∈ sset then [i] else []) ++ coverIdx q (i + 1) rest).countP _
      = (if bitGet s i ∧ q ∈ sset then 1 else 0) + coverPart s q (i + 1) rest
    rw [List.countP_append, ih (i + 1)]
    by_cases hm : q ∈ sset
    · rw [if_pos hm]
      by_cases hb : bitGet s i
      · rw [if_pos ⟨hb, hm⟩]
        simp [List.countP_cons, hb]
      · rw [if_neg (fun hc => hb hc.1)]
        simp [List.countP_cons, hb]
    · rw [if_neg hm, if_neg (fun hc => hm hc.2)]
      simp

/-- The selected-cover count read off a row of `Ri` agrees with the count of
selected columns covering that row. -/
lemma countP_Ri (p : SPProblem) (s : List Bool) (q : Nat) (hwf : p.wf)
    (hq : q < p.rows) :
    (p.Ri.getD q []).countP (fun j => bitGet s j) = coverPart s q 0 p.sets := by
  unfold SPProblem.Ri
  rw [getD_buildRiAux p.sets (List.replicate p.rows []) 0 q
    (fun l hl => (hwf l hl).1) (by rw [List.length_replicate]; exact hq)]
  rw [getD_replicate, if_pos hq, List.nil_append, countP_coverIdx]

lemma costs_getD_nonneg (costs : List ℚ) (hc : ∀ c ∈ costs, 0 ≤ c) (j : Nat) :
    0 ≤ costs.getD j 0 := by
  by_cases hj : j < costs.length
  · rw [getD_lt _ _ _ hj]
    exact hc _ (List.getElem_mem hj)
  · rw [getD_oob _ _ _ (Nat.le_of_not_lt hj)]

/-- The decomposition of `value` into per-row penalties and selected costs. -/
lemma value_eq_core (p : SPProblem) (s : List Bool) (hwf : p.wf)
    (hs : s.length = p.n) :
    p.value s
      = ((List.range p.rows).map (fun q =>
            ((((coverPart s q 0 p.sets : Int) - 1).natAbs : ℚ)) * p.penalty)).sum
        + ((List.range p.n).map (fun j =>
            if bitGet s j then p.costs.getD j 0 else 0)).sum := by
  show (List.range s.length).foldl
      (fun acc i => if bitGet s i then acc + p.costs.getD i 0 else acc) 0
      + p.Ri.foldl
        (fun acc row => acc + ((rowCount s row).natAbs : ℚ) * p.penalty) 0
    = _
  rw [foldl_add_ite_map, foldl_add_map, zero_add, zero_add, hs]
  rw [map_eq_map_range_getD (fun row => ((rowCount s row).natAbs : ℚ) * p.penalty)
    p.Ri [], Ri_length]
  rw [add_comm]
  congr 1
  congr 1
  apply List.map_congr_left
  intro q hq
  have hql : q < p.rows := List.mem_range.mp hq
  rw [rowCount_eq, countP_Ri p s q hwf hql]

/-- C1: `value(s)` is the sum over all rows of `|cover - 1| * penalty` plus
the selected costs; it equals exactly the selected costs on feasible
solutions, and is non-negative for non-negative costs and penalty factor. -/
theorem C1_value_decomposition (rows : Nat) (sets : List (List Nat))
    (costs : List ℚ) (pf : ℚ) (p : SPProblem)
    (hmk : mkSPProblem rows sets costs pf = Except.ok p) (hwf : p.wf)
    (s : List Bool) (hs : s.length = p.n) :
    p.value s
      = ((List.range p.rows).map (fun q =>
            ((((coverPart s q 0 p.sets : Int) - 1).natAbs : ℚ)) * p.penalty)).sum
        + ((List.range p.n).map (fun j =>
            if bitGet s j then p.costs.getD j 0 else 0)).sum
    ∧ (p.validate s = true →
        p.value s = ((List.range p.n).map (fun j =>
            if bitGet s j then p.costs.getD j 0 else 0)).sum)
    ∧ ((∀ c ∈ costs, 0 ≤ c) → 0 ≤ pf → 0 ≤ p.value s) := by
  have hval := value_eq_core p s hwf hs
  have hfields : p.costs = costs ∧ p.penalty = avg costs * pf := by
    unfold mkSPProblem at hmk
    by_cases hlen : sets.length ≠ costs.length
    · rw [if_pos hlen] at hmk
      exact absurd hmk (by simp)
    · rw [if_neg hlen] at hmk
      have hp := Except.ok.inj hmk
      rw [← hp]
      exact ⟨rfl, rfl⟩
  refine ⟨hval, fun hfeas => ?_, fun hc hpf => ?_⟩
  · rw [hval]
    have hcov := (validate_iff_core p s hwf).mp hfeas
    have hzero : ((List.range p.rows).map (fun q =>
        ((((coverPart s q 0 p.sets : Int) - 1).natAbs : ℚ)) * p.penalty)).sum
        = 0 := by
      apply List.sum_eq_zero
      intro x hx
      obtain ⟨q, hq, hxv⟩ := List.mem_map.mp hx
      have hql : q < p.rows := List.mem_range.mp hq
      rw [hcov q hql] at hxv
      simpa using hxv.symm
    rw [hzero, zero_add]
  · have hpen : 0 ≤ p.penalty := by
      rw [hfields.2]
      apply mul_nonneg _ hpf
      unfold avg
      apply div_nonneg (List.sum_nonneg hc)
      exact Nat.cast_nonneg _
    rw [hval]
    apply add_nonneg
    · apply List.sum_nonneg
      intro x hx
      obtain ⟨q, _, hxv⟩ := List.mem_map.mp hx
      rw [← hxv]
      exact mul_nonneg (Nat.cast_nonneg _) hpen
    · apply List.sum_nonneg
      intro x hx
      obtain ⟨j, _, hxv⟩ := List.mem_map.mp hx
      rw [← hxv]
      by_cases hb : bitGet s j
      · rw [if_pos hb, hfields.1]
        exact costs_getD_nonneg costs hc j
      · rw [if_neg hb]

/-- Witness for C1 at the spec's concrete instance and the feasible solution
selecting only the full set. -/
theorem C1_value_decomposition_witness :
    mkSPProblem 3 [[0], [1], [2], [0, 1, 2]] [1, 1, 1, 1] 1 = Except.ok exP
    ∧ exP.wf
    ∧ (exP.validate [false, false, false, true] = true →
        exP.value [false, false, false, true]
          = ((List.range exP.n).map (fun j =>
              if bitGet [false, false, false, true] j
              then exP.costs.getD j 0 else 0)).sum)
    ∧ 0 ≤ exP.value [false, false, false, true] := by
  have hmk : mkSPProblem 3 [[0], [1], [2], [0, 1, 2]] [1, 1, 1, 1] 1
      = Except.ok exP := by
    unfold mkSPProblem exP
    norm_num [sortAsc, avg, List.insertionSort, List.orderedInsert]
  have h := C1_value_decomposition 3 [[0], [1], [2], [0, 1, 2]] [1, 1, 1, 1] 1 exP
    hmk (by decide) [false, false, false, true] (by decide)
  exact ⟨hmk, by decide, h.2.1, h.2.2 (by norm_num) (by norm_num)⟩

/-! ### Random generation (`generate`) -/

lemma popCount_replicate_false (n : Nat) :
    popCount (List.replicate n false) = 0 := by
  unfold popCount
  induction n with
  | zero => rfl
  | succ n ih => rw [List.replicate_succ, List.countP_cons]; simp [ih]

lemma popCount_bitSet_true :
    ∀ (s : List Bool) (v : Nat), v < s.length → bitGet s v = false →
      popCount (bitSet s v true) = popCount s + 1 := by
  intro s
  induction s with
  | nil => intro v hv _; simp at hv
  | cons x xs ih =>
    intro v hv hb
    match v with
    | 0 =>
      have hx : x = false := hb
      subst hx
      show popCount (true :: xs) = popCount (false :: xs) + 1
      unfold popCount
      rw [List.countP_cons, List.countP_cons]
      simp
    | v + 1 =>
      show popCount (x :: bitSet xs v true) = popCount (x :: xs) + 1
      unfold popCount
      rw [List.countP_cons, List.countP_cons]
      have := ih v (by simpa using hv) hb
      unfold popCount at this
      omega

/-- One unfolding step of the `generate()` retry loop. -/
lemma generateLoop_succ (n : Nat) (t : ℚ) (fuel i : Nat) (s : List Bool)
    (g : Rng) :
    generateLoop n t (fuel + 1) i s g
      = if (i : ℚ) < t then
          (if bitGet s (randIntD 0 n (g.ints g.idx))
           then generateLoop n t fuel i s ⟨g.ints, g.idx + 1, g.floats, g.fidx⟩
           else generateLoop n t fuel (i + 1)
             (bitSet s (randIntD 0 n (g.ints g.idx)) true)
             ⟨g.ints, g.idx + 1, g.floats, g.fidx⟩)
        else some (s, g) := rfl

/-- Counting invariant of the `generate()` loop: a successful run exits with
`ceil t` selections made (duplicates retried, not counted). -/
lemma generateLoop_count (n : Nat) (t : ℚ) (hn : 0 < n) :
    ∀ (fuel i : Nat) (s : List Bool) (g : Rng) (r : List Bool × Rng),
      s.length = n →
      generateLoop n t fuel i s g = some r →
      r.1.length = n
      ∧ ((¬ (i : ℚ) < t ∧ r.1 = s)
        ∨ ((i : ℚ) < t ∧ popCount r.1 = popCount s + (Nat.ceil t - i))) := by
  intro fuel
  induction fuel with
  | zero =>
    intro i s g r hs h
    rw [generateLoop] at h
    by_cases hc : (i : ℚ) < t
    · rw [if_pos hc] at h
      exact absurd h (by simp)
    · rw [if_neg hc] at h
      obtain rfl := Option.some.inj h
      exact ⟨hs, Or.inl ⟨hc, rfl⟩⟩
  | succ fuel ih =>
    intro i s g r hs h
    rw [generateLoop_succ] at h
    by_cases hc : (i : ℚ) < t
    · rw [if_pos hc] at h
      have hvlt : randIntD 0 n (g.ints g.idx) < n := by
        unfold randIntD
        simp only [Nat.sub_zero, Nat.zero_add]
        exact Nat.mod_lt _ hn
      by_cases hbit : bitGet s (randIntD 0 n (g.ints g.idx))
      · rw [if_pos hbit] at h
        obtain ⟨hlen, hcase⟩ := ih i s _ r hs h
        rcases hcase with ⟨hnc, _⟩ | ⟨_, hpop⟩
        · exact absurd hc hnc
        · exact ⟨hlen, Or.inr ⟨hc, hpop⟩⟩
      · rw [if_neg hbit] at h
        have hbit2 : bitGet s (randIntD 0 n (g.ints g.idx)) = false := by
          simpa using hbit
        have hpops : popCount (bitSet s (randIntD 0 n (g.ints g.idx)) true)
            = popCount s + 1 :=
          popCount_bitSet_true s _ (by rw [hs]; exact hvlt) hbit2
        obtain ⟨hlen, hcase⟩ := ih (i + 1) _ _ r (by rw [length_bitSet, hs]) h
        refine ⟨hlen, Or.inr ⟨hc, ?_⟩⟩
        rcases hcase with ⟨hnc, hr⟩ | ⟨hc2, hpop⟩
        · have hle : t ≤ ((i + 1 : Nat) : ℚ) := not_lt.mp hnc
          have hceil : Nat.ceil t = i + 1 := by
            rw [Nat.ceil_eq_iff (by omega)]
            constructor
            · push_cast
              simpa using hc
            · push_cast
              push_cast at hle
              exact hle
          rw [hr, hpops, hceil]
          omega
        · have hlt : i + 1 < Nat.ceil t := by
            rw [Nat.lt_ceil]
            push_cast
            push_cast at hc2
            exact hc2
          rw [hpop, hpops]
          omega
    · rw [if_neg hc] at h
      obtain rfl := Option.some.inj h
      exact ⟨hs, Or.inl ⟨hc, rfl⟩⟩

/-- C6 (amended): a successful `generate()` run returns a vector of length
`n` whose number of selected bits is the ceiling (not the floor) of
`rows / averageNonZeros`, duplicates being retried without progress. -/
theorem C6_generate_selects_ceil (p : SPProblem) (g : Rng) (fuel : Nat)
    (r : List Bool × Rng)
    (ht : (p.rows : ℚ) / p.averageNonZeros ≤ (p.n : ℚ))
    (h : p.generate g fuel = some r) :
    r.1.length = p.n
    ∧ popCount r.1 = Nat.ceil ((p.rows : ℚ) / p.averageNonZeros) := by
  unfold SPProblem.generate at h
  by_cases hn : 0 < p.n
  · obtain ⟨hlen, hcase⟩ := generateLoop_count p.n _ hn fuel 0
      (List.replicate p.n false) g r (List.length_replicate _ _) h
    refine ⟨hlen, ?_⟩
    rcases hcase with ⟨hnc, hr⟩ | ⟨hc, hpop⟩
    · have hle : (p.rows : ℚ) / p.averageNonZeros ≤ 0 := by
        have := not_lt.mp hnc
        simpa using this
      rw [hr, popCount_replicate_false, Nat.ceil_eq_zero.mpr hle]
    · rw [hpop, popCount_replicate_false]
      omega
  · have hn0 : p.n = 0 := by omega
    have ht0 : (p.rows : ℚ) / p.averageNonZeros ≤ 0 := by
      rw [hn0] at ht
      simpa using ht
    have hcond : ¬ ((0 : Nat) : ℚ) < (p.rows : ℚ) / p.averageNonZeros := by
      push_cast
      linarith
    have hr : r = (List.replicate p.n false, g) := by
      cases fuel with
      | zero =>
        rw [generateLoop, if_neg hcond] at h
        exact (Option.some.inj h).symm
      | succ fuel =>
        rw [generateLoop_succ, if_neg hcond] at h
        exact (Option.some.inj h).symm
    rw [hr]
    refine ⟨List.length_replicate _ _, ?_⟩
    rw [popCount_replicate_false, Nat.ceil_eq_zero.mpr ht0]

lemma p6_target : (p6.rows : ℚ) / p6.averageNonZeros = 5 / 2 := by
  norm_num [p6, SPProblem.averageNonZeros, SPProblem.n]

/-- A complete concrete run of `generate()` on `p6` with the identity draw
stream: three fresh draws select columns 0, 1, 2 and the loop exits. -/
lemma p6_run : p6.generate ⟨fun k => k, 0, fun _ => 1, 0⟩ 10
    = some ([true, true, true, false, false], ⟨fun k => k, 3, fun _ => 1, 0⟩) := by
  unfold SPProblem.generate
  rw [p6_target]
  show generateLoop p6.n (5 / 2) (9 + 1) 0 (List.replicate p6.n false)
    ⟨fun k => k, 0, fun _ => 1, 0⟩ = _
  rw [generateLoop_succ, if_pos (by norm_num), if_neg (by decide)]
  show generateLoop p6.n (5 / 2) (8 + 1) 1 [true, false, false, false, false]
    ⟨fun k => k, 1, fun _ => 1, 0⟩ = _
  rw [generateLoop_succ, if_pos (by norm_num), if_neg (by decide)]
  show generateLoop p6.n (5 / 2) (7 + 1) 2 [true, true, false, false, false]
    ⟨fun k => k, 2, fun _ => 1, 0⟩ = _
  rw [generateLoop_succ, if_pos (by norm_num), if_neg (by decide)]
  show generateLoop p6.n (5 / 2) (6 + 1) 3 [true, true, true, false, false]
    ⟨fun k => k, 3, fun _ => 1, 0⟩ = _
  rw [generateLoop_succ, if_neg (by norm_num)]

/-- Counterexample to C6 as stated: on `p6` (whose target `5/2` does not
exceed `n = 5`) a successful run selects 3 bits, but
`floor(rows / averageNonZeros) = 2`. -/
theorem C6_floor_counterexample :
    ((p6.rows : ℚ) / p6.averageNonZeros ≤ (p6.n : ℚ))
    ∧ (∃ r, p6.generate ⟨fun k => k, 0, fun _ => 1, 0⟩ 10 = some r
        ∧ popCount r.1 = 3)
    ∧ Nat.floor ((p6.rows : ℚ) / p6.averageNonZeros) = 2 := by
  refine ⟨?_, ⟨_, p6_run, by decide⟩, ?_⟩
  · rw [p6_target]
    norm_num [p6, SPProblem.n]
  · rw [p6_target]
    rw [Nat.floor_eq_iff (by norm_num)]
    norm_num

/-- Witness for the amended C6 on the concrete run over `p6`. -/
theorem C6_generate_selects_ceil_witness :
    ∃ r, p6.generate ⟨fun k => k, 0, fun _ => 1, 0⟩ 10 = some r
      ∧ r.1.length = p6.n
      ∧ popCount r.1 = Nat.ceil ((p6.rows : ℚ) / p6.averageNonZeros) := by
  refine ⟨([true, true, true, false, false], ⟨fun k => k, 3, fun _ => 1, 0⟩),
    p6_run, ?_⟩
  exact C6_generate_selects_ceil p6 ⟨fun k => k, 0, fun _ => 1, 0⟩ 10 _
    (by rw [p6_target]; norm_num [p6, SPProblem.n]) p6_run

/-! ### Crossover with post-crossover mutation (`SPProblem.crossover`) -/

lemma mod_eq_sub_of_lt_two (a n : Nat) (h1 : n ≤ a) (h2 : a < 2 * n) :
    a % n = a - n := by
  rw [Nat.mod_eq_sub_mod h1, Nat.mod_eq_of_lt (by omega)]

/-- The code's `inRange` region is exactly the wrap-around window of
consecutive indices starting at `x + 1`, of length `distance` when the
window wraps (`n ≤ x + distance`) and `distance - 1` otherwise; index `x`
itself is never in the region. -/
lemma inRangeX_iff (n x d i : Nat) (hx : x < n) (hd1 : 1 ≤ d) (hd2 : d ≤ n - 2)
    (hi : i < n) :
    (inRangeX n x d i = true)
      ↔ ∃ k, k < (if n ≤ x + d then d else d - 1) ∧ (x + 1 + k) % n = i := by
  have hn3 : 3 ≤ n := by omega
  unfold inRangeX
  simp only [Bool.or_eq_true, Bool.and_eq_true, decide_eq_true_eq]
  by_cases hw : n ≤ x + d
  · rw [if_pos hw]
    have hxd2 : x + d < 2 * n := by omega
    have hmod : (x + d) % n = x + d - n := mod_eq_sub_of_lt_two _ _ hw hxd2
    rw [hmod]
    constructor
    · rintro (⟨hxi, hixd⟩ | ⟨_, hi2⟩)
      · refine ⟨i - x - 1, by omega, ?_⟩
        have harg : x + 1 + (i - x - 1) = i := by omega
        rw [harg, Nat.mod_eq_of_lt hi]
      · refine ⟨i + n - x - 1, by omega, ?_⟩
        have harg : x + 1 + (i + n - x - 1) = i + n := by omega
        rw [harg, Nat.add_mod_right, Nat.mod_eq_of_lt hi]
    · rintro ⟨k, hk, hkv⟩
      by_cases hlt : x + 1 + k < n
      · rw [Nat.mod_eq_of_lt hlt] at hkv
        left
        omega
      · rw [mod_eq_sub_of_lt_two _ _ (by omega) (by omega)] at hkv
        right
        exact ⟨hw, by omega⟩
  · rw [if_neg hw]
    constructor
    · rintro (⟨hxi, hixd⟩ | ⟨hww, _⟩)
      · refine ⟨i - x - 1, by omega, ?_⟩
        have harg : x + 1 + (i - x - 1) = i := by omega
        rw [harg, Nat.mod_eq_of_lt hi]
      · exact absurd hww hw
    · rintro ⟨k, hk, hkv⟩
      have hlt : x + 1 + k < n := by omega
      rw [Nat.mod_eq_of_lt hlt] at hkv
      left
      omega

/-- One unfolding step of the crossover assignment loop. -/
lemma xLoop_succ (p : SPProblem) (a b : List Bool) (x distance i cnt : Nat)
    (ab ba : List Bool) (g : Rng) :
    xLoop p a b x distance i (cnt + 1) ab ba g
      = if inRangeX p.n x distance i then
          xLoop p a b x distance (i + 1) cnt
            (bitSet ab i (if g.floats g.fidx < 1 / (p.n : ℚ)
              then !(bitGet b i) else bitGet b i))
            (bitSet ba i (if g.floats (g.fidx + 1) < 1 / (p.n : ℚ)
              then !(bitGet a i) else bitGet a i))
            ⟨g.ints, g.idx, g.floats, g.fidx + 2⟩
        else
          xLoop p a b x distance (i + 1) cnt
            (bitSet ab i (if g.floats g.fidx < 1 / (p.n : ℚ)
              then !(bitGet a i) else bitGet a i))
            (bitSet ba i (if g.floats (g.fidx + 1) < 1 / (p.n : ℚ)
              then !(bitGet b i) else bitGet b i))
            ⟨g.ints, g.idx, g.floats, g.fidx + 2⟩ := rfl

/-- In a run where no per-bit mutation draw fires, the crossover loop writes
every index in `[i0, i0 + cnt)` with the parent bit selected by `inRange`,
and leaves indices below `i0` alone. -/
lemma xLoop_no_mutation (p : SPProblem) (a b : List Bool) (x distance : Nat) :
    ∀ (cnt i0 : Nat) (ab ba : List Bool) (g : Rng),
      (∀ k, ¬ g.floats k < 1 / (p.n : ℚ)) →
      i0 + cnt ≤ ab.length → i0 + cnt ≤ ba.length →
      (xLoop p a b x distance i0 cnt ab ba g).1.1.length = ab.length
      ∧ (xLoop p a b x distance i0 cnt ab ba g).1.2.length = ba.length
      ∧ (∀ j, j < i0 →
          (xLoop p a b x distance i0 cnt ab ba g).1.1.getD j false
              = ab.getD j false
          ∧ (xLoop p a b x distance i0 cnt ab ba g).1.2.getD j false
              = ba.getD j false)
      ∧ ∀ j, i0 ≤ j → j < i0 + cnt →
          ((xLoop p a b x distance i0 cnt ab ba g).1.1.getD j false
              = if inRangeX p.n x distance j then bitGet b j else bitGet a j)
          ∧ ((xLoop p a b x distance i0 cnt ab ba g).1.2.getD j false
              = if inRangeX p.n x distance j then bitGet a j else bitGet b j) := by
  intro cnt
  induction cnt with
  | zero =>
    intro i0 ab ba g _ _ _
    exact ⟨rfl, rfl, fun j _ => ⟨rfl, rfl⟩, fun j h1 h2 => absurd h2 (by omega)⟩
  | succ cnt ih =>
    intro i0 ab ba g hmut hab hba
    rw [xLoop_succ]
    have hq1 := hmut g.fidx
    have hq2 := hmut (g.fidx + 1)
    by_cases hir : inRangeX p.n x distance i0
    · rw [if_pos hir, if_neg hq1, if_neg hq2]
      obtain ⟨hl1, hl2, hunch, hwr⟩ := ih (i0 + 1)
        (bitSet ab i0 (bitGet b i0)) (bitSet ba i0 (bitGet a i0))
        ⟨g.ints, g.idx, g.floats, g.fidx + 2⟩ (fun k => hmut k)
        (by rw [length_bitSet]; omega) (by rw [length_bitSet]; omega)
      refine ⟨by rw [hl1, length_bitSet], by rw [hl2, length_bitSet], ?_, ?_⟩
      · intro j hj
        obtain ⟨hu1, hu2⟩ := hunch j (by omega)
        rw [hu1, hu2, getD_bitSet_ne ab i0 j _ (by omega),
          getD_bitSet_ne ba i0 j _ (by omega)]
        exact ⟨rfl, rfl⟩
      · intro j hj1 hj2
        by_cases hji : j = i0
        · subst hji
          obtain ⟨hu1, hu2⟩ := hunch j (by omega)
          rw [hu1, hu2, getD_bitSet_self ab j _ (by omega),
            getD_bitSet_self ba j _ (by omega), if_pos hir, if_pos hir]
          exact ⟨rfl, rfl⟩
        · exact hwr j (by omega) (by omega)
    · rw [if_neg hir, if_neg hq1, if_neg hq2]
      obtain ⟨hl1, hl2, hunch, hwr⟩ := ih (i0 + 1)
        (bitSet ab i0 (bitGet a i0)) (bitSet ba i0 (bitGet b i0))
        ⟨g.ints, g.idx, g.floats, g.fidx + 2⟩ (fun k => hmut k)
        (by rw [length_bitSet]; omega) (by rw [length_bitSet]; omega)
      refine ⟨by rw [hl1, length_bitSet], by rw [hl2, length_bitSet], ?_, ?_⟩
      · intro j hj
        obtain ⟨hu1, hu2⟩ := hunch j (by omega)
        rw [hu1, hu2, getD_bitSet_ne ab i0 j _ (by omega),
          getD_bitSet_ne ba i0 j _ (by omega)]
        exact ⟨rfl, rfl⟩
      · intro j hj1 hj2
        by_cases hji : j = i0
        · subst hji
          obtain ⟨hu1, hu2⟩ := hunch j (by omega)
          rw [hu1, hu2, getD_bitSet_self ab j _ (by omega),
            getD_bitSet_self ba j _ (by omega), if_neg hir, if_neg hir]
          exact ⟨rfl, rfl⟩
        · exact hwr j (by omega) (by omega)

lemma drawDistance_succ (size fuel : Nat) (g : Rng) :
    drawDistance size (fuel + 1) g
      = if randIntD 0 (size - 1) (g.ints g.idx) = 0
        then drawDistance size fuel ⟨g.ints, g.idx + 1, g.floats, g.fidx⟩
        else some (randIntD 0 (size - 1) (g.ints g.idx),
          ⟨g.ints, g.idx + 1, g.floats, g.fidx⟩) := rfl

/-- The distance retry loop only returns nonzero values below `size - 1`,
and never touches the float stream. -/
lemma drawDistance_some (size : Nat) :
    ∀ (fuel : Nat) (g : Rng) (d : Nat) (g1 : Rng),
      drawDistance size fuel g = some (d, g1) →
      d ≠ 0 ∧ (1 < size → d < size - 1)
      ∧ g1.ints = g.ints ∧ g1.floats = g.floats ∧ g1.fidx = g.fidx := by
  intro fuel
  induction fuel with
  | zero => intro g d g1 h; simp [drawDistance] at h
  | succ fuel ih =>
    intro g d g1 h
    rw [drawDistance_succ] at h
    by_cases hz : randIntD 0 (size - 1) (g.ints g.idx) = 0
    · rw [if_pos hz] at h
      obtain ⟨h1, h2, h3, h4, h5⟩ := ih ⟨g.ints, g.idx + 1, g.floats, g.fidx⟩ d g1 h
      exact ⟨h1, h2, h3, h4, h5⟩
    · rw [if_neg hz] at h
      obtain ⟨hd, hg⟩ := Prod.mk.injEq .. ▸ Option.some.inj h
      refine ⟨by rw [← hd]; exact hz, ?_, by rw [← hg], by rw [← hg], by rw [← hg]⟩
      intro hsz
      rw [← hd]
      unfold randIntD
      simp only [Nat.zero_add]
      exact Nat.mod_lt _ (by omega)

/-- C5 (amended): in a mutation-free run, the swapped region of
`SPProblem.crossover` is the wrap-around window of consecutive indices
starting at `x + 1` whose length is `distance` if `n ≤ x + distance` and
`distance - 1` otherwise (index `x` itself is never swapped); the drawn
`distance` is nonzero and below `n - 1`. -/
theorem C5_crossover_window (p : SPProblem) (a b : List Bool) (g : Rng)
    (fuel : Nat) (res : (List Bool × List Bool) × Rng)
    (hn : a.length = p.n) (hbn : b.length = p.n) (hsz : 1 < p.n)
    (hmut : ∀ k, ¬ g.floats k < 1 / (p.n : ℚ))
    (hres : p.crossover a b g fuel = some res) :
    ∃ distance g1,
      drawDistance a.length fuel ⟨g.ints, g.idx + 1, g.floats, g.fidx⟩
          = some (distance, g1)
      ∧ 1 ≤ distance ∧ distance ≤ p.n - 2
      ∧ ∀ j, j < p.n →
          (res.1.1.getD j false
            = if ∃ k, k < (if p.n ≤ randIntD 0 a.length (g.ints g.idx) + distance
                           then distance else distance - 1)
                  ∧ (randIntD 0 a.length (g.ints g.idx) + 1 + k) % p.n = j
              then bitGet b j else bitGet a j)
          ∧ (res.1.2.getD j false
            = if ∃ k, k < (if p.n ≤ randIntD 0 a.length (g.ints g.idx) + distance
                           then distance else distance - 1)
                  ∧ (randIntD 0 a.length (g.ints g.idx) + 1 + k) % p.n = j
              then bitGet a j else bitGet b j) := by
  unfold SPProblem.crossover at hres
  simp only [Rng.nextInt] at hres
  cases hdd : drawDistance a.length fuel ⟨g.ints, g.idx + 1, g.floats, g.fidx⟩ with
  | none =>
    rw [hdd] at hres
    simp at hres
  | some dg =>
    obtain ⟨distance, g2⟩ := dg
    rw [hdd] at hres
    have hres2 := Option.some.inj hres
    obtain ⟨hd0, hdlt, hgi, hgf, hgfi⟩ :=
      drawDistance_some a.length fuel _ distance g2 hdd
    have hdl2 : distance < a.length - 1 := hdlt (by omega)
    refine ⟨distance, g2, rfl, by omega, by omega, ?_⟩
    have hxlt : randIntD 0 a.length (g.ints g.idx) < p.n := by
      unfold randIntD
      simp only [Nat.zero_add, Nat.sub_zero]
      rw [hn]
      exact Nat.mod_lt _ (by omega)
    have hmut2 : ∀ k, ¬ g2.floats k < 1 / (p.n : ℚ) := by
      intro k
      rw [hgf]
      exact hmut k
    obtain ⟨hl1, hl2, hunch, hwr⟩ := xLoop_no_mutation p a b
      (randIntD 0 a.length (g.ints g.idx)) distance a.length 0
      (List.replicate a.length false) (List.replicate b.length false) g2 hmut2
      (by rw [List.length_replicate]; omega)
      (by rw [List.length_replicate]; omega)
    intro j hj
    obtain ⟨hw1, hw2⟩ := hwr j (by omega) (by omega)
    have hiff := inRangeX_iff p.n (randIntD 0 a.length (g.ints g.idx)) distance j
      hxlt (by omega) (by omega) hj
    rw [← hres2]
    constructor
    · rw [hw1]
      by_cases hex : ∃ k, k < (if p.n ≤ randIntD 0 a.length (g.ints g.idx) + distance
            then distance else distance - 1)
          ∧ (randIntD 0 a.length (g.ints g.idx) + 1 + k) % p.n = j
      · rw [if_pos (hiff.mpr hex), if_pos hex]
      · rw [if_neg (fun hh => hex (hiff.mp hh)), if_neg hex]
    · rw [hw2]
      by_cases hex : ∃ k, k < (if p.n ≤ randIntD 0 a.length (g.ints g.idx) + distance
            then distance else distance - 1)
          ∧ (randIntD 0 a.length (g.ints g.idx) + 1 + k) % p.n = j
      · rw [if_pos (hiff.mpr hex), if_pos hex]
      · rw [if_neg (fun hh => hex (hiff.mp hh)), if_neg hex]

/-- Counterexample to C5 as stated: on the size-3 instance, with start
`x = 0` and drawn `distance = 1` and no mutation draw firing, the claim puts
index 0 in the swapped window (so child1 should take `b`'s `true` bit
there), but the produced child1 keeps `a`'s bit `false` at index 0. -/
theorem C5_window_counterexample :
    ∃ res, p5.crossover [false, false, false] [true, true, true]
        ⟨fun k => k, 0, fun _ => 1, 0⟩ 5 = some res
      ∧ randIntD 0 3 0 = 0
      ∧ drawDistance 3 5 ⟨fun k => k, 1, fun _ => 1, 0⟩
          = some (1, ⟨fun k => k, 2, fun _ => 1, 0⟩)
      ∧ res.1.1.getD 0 false = false
      ∧ bitGet [true, true, true] 0 = true := by
  refine ⟨xLoop p5 [false, false, false] [true, true, true] 0 1 0 3
      (List.replicate 3 false) (List.replicate 3 false)
      ⟨fun k => k, 2, fun _ => 1, 0⟩, rfl, rfl, rfl, ?_, rfl⟩
  obtain ⟨_, _, _, hwr⟩ := xLoop_no_mutation p5 [false, false, false]
    [true, true, true] 0 1 3 0 (List.replicate 3 false) (List.replicate 3 false)
    ⟨fun k => k, 2, fun _ => 1, 0⟩
    (fun k => by norm_num [p5, SPProblem.n])
    (by simp) (by simp)
  rw [(hwr 0 (by omega) (by omega)).1, if_neg (by decide)]
  rfl

/-- Witness for the amended C5 on the concrete size-3 run. -/
theorem C5_crossover_window_witness :
    ∃ distance g1,
      drawDistance 3 5 ⟨fun k => k, 1, fun _ => (1 : ℚ), 0⟩ = some (distance, g1)
      ∧ 1 ≤ distance ∧ distance ≤ p5.n - 2 := by
  obtain ⟨d, g1, h1, h2, h3, _⟩ := C5_crossover_window p5 [false, false, false]
    [true, true, true] ⟨fun k => k, 0, fun _ => 1, 0⟩ 5 _ rfl rfl (by decide)
    (fun k => by norm_num [p5, SPProblem.n]) rfl
  exact ⟨d, g1, h1, h2, h3⟩

/-! ### The steady-state driver (`ssgarow`) -/

lemma getD_append_left {α : Type} (l1 l2 : List α) (i : Nat) (d : α)
    (h : i < l1.length) : (l1 ++ l2).getD i d = l1.getD i d := by
  rw [List.getD_eq_getElem?_getD, List.getD_eq_getElem?_getD,
    List.getElem?_append, if_pos h]

lemma getD_append_self {α : Type} (l1 : List α) (x d : α) :
    (l1 ++ [x]).getD l1.length d = x := by
  rw [List.getD_eq_getElem?_getD, List.getElem?_append_right (le_refl _)]
  simp

lemma improveN_value_le (p : SPProblem) (strat : ImprovementStrategy)
    (rss : RowSelectionStrategy) :
    ∀ (k : Nat) (s : List Bool) (g : Rng),
      p.value (improveN p strat rss k s g).1 ≤ p.value s := by
  intro k
  induction k with
  | zero => intro s g; exact le_refl _
  | succ k ih =>
    intro s g
    show p.value (improveN p strat rss k (p.improve s strat rss g).1
      (p.improve s strat rss g).2).1 ≤ _
    exact le_trans (ih _ _) (improve_value_le p s strat rss g)

/-- Any `improve` pass returns the input solution when no candidate flip
strictly improves the fitness. -/
lemma improve_eq_self_of_no_improvement (p : SPProblem) (s : List Bool)
    (strat : ImprovementStrategy) (rss : RowSelectionStrategy) (g : Rng)
    (hall : ∀ c ∈ (p.selectRow s rss g).1, ¬ p.value (bitFlip s c) < p.value s) :
    (p.improve s strat rss g).1 = s := by
  cases strat
  case Best =>
    obtain ⟨_, h2, _⟩ :=
      bestLoop_char p s ((p.selectRow s rss g).1) (p.value s) none 0
    rw [improve_best_eq, (h2 hall).2]
  case First =>
    rw [improve_first_eq,
      (firstLoop_char p (p.value s) ((p.selectRow s rss g).1) s).1 hall]

lemma improve_rng (p : SPProblem) (s : List Bool) (strat : ImprovementStrategy)
    (rss : RowSelectionStrategy) (g : Rng) :
    (p.improve s strat rss g).2 = (p.selectRow s rss g).2 := by
  cases strat
  case Best =>
    show (match bestLoop p ((p.selectRow s rss g).1) s (p.value s) none 0 with
      | (newS, _, some k) =>
          (bitFlip newS (((p.selectRow s rss g).1).getD k 0), (p.selectRow s rss g).2)
      | (_, _, none) => (s, (p.selectRow s rss g).2)).2 = _
    generalize bestLoop p ((p.selectRow s rss g).1) s (p.value s) none 0 = res
    obtain ⟨newS, bc2, best⟩ := res
    cases best <;> rfl
  case First =>
    show (match firstLoop p (p.value s) ((p.selectRow s rss g).1) s with
      | some t => (t, (p.selectRow s rss g).2)
      | none => (s, (p.selectRow s rss g).2)).2 = _
    generalize firstLoop p (p.value s) ((p.selectRow s rss g).1) s = res
    cases res <;> rfl

/-- The initialization loop extends the population and fitness cache in
lock-step, keeping the cache consistent. -/
lemma initLoop_spec (p : SPProblem) (strat : ImprovementStrategy)
    (rss : RowSelectionStrategy) (improvements fuel : Nat) :
    ∀ (count : Nat) (pop : List (List Bool)) (pCost : List ℚ) (g : Rng)
      (r : List (List Bool) × List ℚ × Rng),
      initLoop p strat rss improvements fuel count pop pCost g = some r →
      pop.length = pCost.length →
      (∀ i, i < pop.length → pCost.getD i 0 = p.value (pop.getD i [])) →
      r.1.length = r.2.1.length
      ∧ r.1.length = pop.length + count
      ∧ ∀ i, i < r.1.length → r.2.1.getD i 0 = p.value (r.1.getD i []) := by
  intro count
  induction count with
  | zero =>
    intro pop pCost g r h hlen hcons
    obtain rfl := Option.some.inj h
    exact ⟨hlen, by simp, hcons⟩
  | succ count ih =>
    intro pop pCost g r h hlen hcons
    simp only [initLoop] at h
    cases hgen : p.generate g fuel with
    | none =>
      rw [hgen] at h
      simp at h
    | some sg =>
      obtain ⟨s0, g1⟩ := sg
      rw [hgen] at h
      have h2 : initLoop p strat rss improvements fuel count
          (pop ++ [(improveN p strat rss improvements s0 g1).1])
          (pCost ++ [p.value (improveN p strat rss improvements s0 g1).1])
          (improveN p strat rss improvements s0 g1).2 = some r := h
      have hlen2 : (pop ++ [(improveN p strat rss improvements s0 g1).1]).length
          = (pCost ++ [p.value (improveN p strat rss improvements s0 g1).1]).length := by
        simp [hlen]
      have hcons2 : ∀ i,
          i < (pop ++ [(improveN p strat rss improvements s0 g1).1]).length →
          (pCost ++ [p.value (improveN p strat rss improvements s0 g1).1]).getD i 0
            = p.value ((pop ++ [(improveN p strat rss improvements s0 g1).1]).getD i []) := by
        intro i hi
        simp only [List.length_append, List.length_cons, List.length_nil] at hi
        by_cases hilt : i < pop.length
        · rw [getD_append_left _ _ _ _ hilt,
            getD_append_left _ _ _ _ (by omega), hcons i hilt]
        · have hieq : i = pop.length := by omega
          subst hieq
          conv_lhs => rw [hlen]
          rw [getD_append_self, getD_append_self]
      obtain ⟨ha, hb, hc⟩ := ih _ _ _ r h2 hlen2 hcons2
      refine ⟨ha, ?_, hc⟩
      rw [hb]
      simp
      omega

/-- The replacement phase keeps the cache consistent, preserves the
population size and never raises the minimum cached fitness. -/
lemma replaceLoop_spec (p : SPProblem) (strat : ImprovementStrategy)
    (rss : RowSelectionStrategy) (improvements : Nat) :
    ∀ (children pop : List (List Bool)) (pCost : List ℚ) (g : Rng),
      pop.length = pCost.length →
      (∀ i, i < pop.length → pCost.getD i 0 = p.value (pop.getD i [])) →
      (replaceLoop p strat rss improvements children pop pCost g).1.length = pop.length
      ∧ (replaceLoop p strat rss improvements children pop pCost g).2.1.length
          = pCost.length
      ∧ (∀ i, i < (replaceLoop p strat rss improvements children pop pCost g).1.length →
          (replaceLoop p strat rss improvements children pop pCost g).2.1.getD i 0
            = p.value ((replaceLoop p strat rss improvements children pop pCost g).1.getD i []))
      ∧ qMin (replaceLoop p strat rss improvements children pop pCost g).2.1
          ≤ qMin pCost := by
  intro children
  induction children with
  | nil =>
    intro pop pCost g hlen hcons
    exact ⟨rfl, rfl, hcons, le_refl _⟩
  | cons child rest ih =>
    intro pop pCost g hlen hcons
    simp only [replaceLoop]
    split
    · exact ih pop pCost _ hlen hcons
    · rename_i w hw
      split
      case isFalse => exact ih pop pCost _ hlen hcons
      case isTrue hrep =>
        by_cases hwlt : w < pop.length
        · have hlen2 : (pop.set w (improveN p strat rss improvements child g).1).length
              = (pCost.set w (p.value (improveN p strat rss improvements child g).1)).length := by
            simp [hlen]
          have hcons2 : ∀ i,
              i < (pop.set w (improveN p strat rss improvements child g).1).length →
              (pCost.set w (p.value (improveN p strat rss improvements child g).1)).getD i 0
                = p.value ((pop.set w (improveN p strat rss improvements child g).1).getD i []) := by
            intro i hi
            rw [List.length_set] at hi
            by_cases hiw : i = w
            · subst hiw
              rw [getD_set_self _ _ _ _ (by omega), getD_set_self _ _ _ _ hi]
            · rw [getD_set_ne _ _ _ _ _ hiw, getD_set_ne _ _ _ _ _ hiw,
                hcons i hi]
          obtain ⟨ha, hb, hc, hd⟩ := ih _ _ _ hlen2 hcons2
          refine ⟨by rw [ha, List.length_set], by rw [hb, List.length_set], hc, ?_⟩
          refine le_trans hd ?_
          exact qMin_set_le pCost w _ (by omega) (le_of_lt hrep)
        · rw [List.set_eq_of_length_le (by omega),
            List.set_eq_of_length_le (le_trans (le_of_eq hlen.symm) (Nat.le_of_not_lt hwlt))]
          exact ih pop pCost _ hlen hcons

/-- The generation loop keeps the cache consistent, preserves the population
size, and the minimum cached fitness never increases across generations. -/
lemma genLoop_spec (p : SPProblem) (strat : ImprovementStrategy)
    (rss : RowSelectionStrategy) (improvements target : Nat) (xRate : ℚ)
    (fuel : Nat) :
    ∀ (genN : Nat) (pop : List (List Bool)) (pCost : List ℚ) (g : Rng)
      (r : List (List Bool) × List ℚ × Rng),
      genLoop p strat rss improvements target xRate fuel genN pop pCost g = some r →
      pop.length = pCost.length →
      (∀ i, i < pop.length → pCost.getD i 0 = p.value (pop.getD i [])) →
      r.1.length = pop.length ∧ r.2.1.length = pCost.length
      ∧ (∀ i, i < r.1.length → r.2.1.getD i 0 = p.value (r.1.getD i []))
      ∧ qMin r.2.1 ≤ qMin pCost := by
  intro genN
  induction genN with
  | zero =>
    intro pop pCost g r h hlen hcons
    obtain rfl := Option.some.inj h
    exact ⟨rfl, rfl, hcons, le_refl _⟩
  | succ genN ih =>
    intro pop pCost g r h hlen hcons
    simp only [genLoop] at h
    cases hsel : candLoop p pop target fuel [] g with
    | none =>
      rw [hsel] at h
      simp at h
    | some selg =>
      obtain ⟨selection, g1⟩ := selg
      rw [hsel] at h
      have h1 : (match buildNewP p pop selection xRate fuel selection [] g1 with
          | none => none
          | some (newP, g2) =>
            genLoop p strat rss improvements target xRate fuel genN
              (replaceLoop p strat rss improvements newP pop pCost g2).1
              (replaceLoop p strat rss improvements newP pop pCost g2).2.1
              (replaceLoop p strat rss improvements newP pop pCost g2).2.2)
          = some r := h
      cases hnp : buildNewP p pop selection xRate fuel selection [] g1 with
      | none =>
        rw [hnp] at h1
        simp at h1
      | some npg =>
        obtain ⟨newP, g2⟩ := npg
        rw [hnp] at h1
        obtain ⟨ra, rb, rc, rd⟩ :=
          replaceLoop_spec p strat rss improvements newP pop pCost g2 hlen hcons
        have h2 : genLoop p strat rss improvements target xRate fuel genN
            (replaceLoop p strat rss improvements newP pop pCost g2).1
            (replaceLoop p strat rss improvements newP pop pCost g2).2.1
            (replaceLoop p strat rss improvements newP pop pCost g2).2.2
            = some r := h1
        obtain ⟨ha, hb, hc, hd⟩ := ih _ _ _ r h2 (by rw [ra, rb, hlen]) (by
          intro i hi
          exact rc i (by omega))
        exact ⟨by rw [ha, ra], by rw [hb, rb], hc, le_trans hd rd⟩

/-- `findBest` on a nonempty population returns an index attaining the
minimum recomputed fitness. -/
lemma findBest_spec (p : SPProblem) (pop : List (List Bool)) (hne : pop ≠ []) :
    ∃ k, findBest p pop = some k ∧ k < pop.length
      ∧ ∀ i, i < pop.length →
          p.value (pop.getD k []) ≤ p.value (pop.getD i []) := by
  have main : ∀ n : Nat, n = 0 ∨ ∃ k kv,
      (List.range n).foldl (fun acc i =>
        match acc with
        | none => some (i, p.value (pop.getD i []))
        | some (k, kv) =>
          if kv > p.value (pop.getD i []) then some (i, p.value (pop.getD i []))
          else some (k, kv)) none = some (k, kv)
      ∧ k < n ∧ kv = p.value (pop.getD k [])
      ∧ ∀ i, i < n → kv ≤ p.value (pop.getD i []) := by
    intro n
    induction n with
    | zero => left; rfl
    | succ n ih =>
      right
      rw [List.range_succ, List.foldl_append]
      rcases ih with hz | ⟨k, kv, hfold, hk, hkv, hmin⟩
      · subst hz
        refine ⟨0, p.value (pop.getD 0 []), rfl, by omega, rfl, ?_⟩
        intro i hi
        have : i = 0 := by omega
        subst this
        exact le_refl _
      · rw [hfold]
        simp only [List.foldl_cons, List.foldl_nil]
        by_cases hlt : kv > p.value (pop.getD n [])
        · rw [if_pos hlt]
          refine ⟨n, p.value (pop.getD n []), rfl, by omega, rfl, ?_⟩
          intro i hi
          by_cases hin : i < n
          · exact le_trans (le_of_lt hlt) (hmin i hin)
          · have : i = n := by omega
            subst this
            exact le_refl _
        · rw [if_neg hlt]
          refine ⟨k, kv, rfl, by omega, hkv, ?_⟩
          intro i hi
          by_cases hin : i < n
          · exact hmin i hin
          · have : i = n := by omega
            subst this
            exact not_lt.mp hlt
  rcases main pop.length with hz | ⟨k, kv, hfold, hk, hkv, hmin⟩
  · exact absurd (List.length_eq_zero.mp hz) hne
  · refine ⟨k, ?_, hk, ?_⟩
    · unfold findBest findBestFold
      rw [hfold]
      rfl
    · intro i hi
      rw [← hkv]
      exact hmin i hi

/-- C4: for every run of `ssgarow` with `popSize, genN, improvements ≥ 1`
and any draw streams, the returned solution's fitness is at most the
minimum fitness of the population right after initialization, and the
population's minimum cached fitness never increases across the generation
loop. -/
theorem C4_ssgarow_never_worse_than_init (p : SPProblem)
    (popSize genN improvements : Nat) (strat : ImprovementStrategy)
    (rss : RowSelectionStrategy) (selRate xRate : ℚ) (g : Rng) (fuel : Nat)
    (pop : List (List Bool)) (pCost : List ℚ) (g1 : Rng) (s : List Bool)
    (hpos : 1 ≤ popSize) (hgenN : 1 ≤ genN) (himp : 1 ≤ improvements)
    (hinit : initLoop p strat rss improvements fuel popSize [] [] g
        = some (pop, pCost, g1))
    (hrun : ssgarow p popSize genN improvements strat rss selRate xRate g fuel
        = some s) :
    p.value s ≤ qMin pCost
    ∧ ∀ (pop2 : List (List Bool)) (pCost2 : List ℚ) (g2 : Rng),
        genLoop p strat rss improvements (Nat.floor ((popSize : ℚ) * selRate))
            xRate fuel genN pop pCost g1 = some (pop2, pCost2, g2) →
        qMin pCost2 ≤ qMin pCost := by
  obtain ⟨hil0, hil20, hicons0⟩ := initLoop_spec p strat rss improvements fuel
    popSize [] [] g (pop, pCost, g1) hinit rfl (fun i hi => absurd hi (by simp))
  have hil : pop.length = pCost.length := hil0
  have hil2 : pop.length = popSize := by
    have h20 : pop.length = ([] : List (List Bool)).length + popSize := hil20
    simpa using h20
  have hicons : ∀ i, i < pop.length → pCost.getD i 0 = p.value (pop.getD i []) :=
    hicons0
  unfold ssgarow at hrun
  rw [hinit] at hrun
  have hrun1 : (match genLoop p strat rss improvements
      (Nat.floor ((popSize : ℚ) * selRate)) xRate fuel genN pop pCost g1 with
    | none => none
    | some (pop2, _, g2) =>
      match findBest p pop2 with
      | none => none
      | some b => some (improveN p strat rss improvements (pop2.getD b []) g2).1)
      = some s := hrun
  cases hgl : genLoop p strat rss improvements
      (Nat.floor ((popSize : ℚ) * selRate)) xRate fuel genN pop pCost g1 with
  | none =>
    rw [hgl] at hrun1
    simp at hrun1
  | some st =>
    obtain ⟨pop2, pCost2, g2⟩ := st
    rw [hgl] at hrun1
    obtain ⟨hga0, hgb0, hgcons0, hgmin0⟩ := genLoop_spec p strat rss improvements
      (Nat.floor ((popSize : ℚ) * selRate)) xRate fuel genN pop pCost g1
      (pop2, pCost2, g2) hgl hil hicons
    have hga : pop2.length = pop.length := hga0
    have hgb : pCost2.length = pCost.length := hgb0
    have hgcons : ∀ i, i < pop2.length →
        pCost2.getD i 0 = p.value (pop2.getD i []) := hgcons0
    have hgmin : qMin pCost2 ≤ qMin pCost := hgmin0
    have hpne : pop2 ≠ [] := by
      intro he
      rw [he] at hga
      simp at hga
      omega
    obtain ⟨k, hfb, hk, hmin⟩ := findBest_spec p pop2 hpne
    have hrun2 : (match findBest p pop2 with
      | none => none
      | some b => some (improveN p strat rss improvements (pop2.getD b []) g2).1)
        = some s := hrun1
    rw [hfb] at hrun2
    have hs := Option.some.inj hrun2
    constructor
    · rw [← hs]
      have hc2ne : pCost2 ≠ [] := by
        intro he
        rw [he] at hgb
        simp at hgb
        omega
      obtain ⟨m, hm, hqm⟩ := qMin_mem pCost2 hc2ne
      have hmlt : m < pop2.length := by
        rw [hga, hil, ← hgb]
        exact hm
      calc p.value (improveN p strat rss improvements (pop2.getD k []) g2).1
          ≤ p.value (pop2.getD k []) := improveN_value_le p strat rss _ _ _
        _ ≤ p.value (pop2.getD m []) := hmin m hmlt
        _ = pCost2.getD m 0 := (hgcons m hmlt).symm
        _ = qMin pCost2 := hqm.symm
        _ ≤ qMin pCost := hgmin
    · intro pop2b pCost2b g2b hgl2
      have heq := Option.some.inj hgl2
      simp only [Prod.mk.injEq] at heq
      rw [← heq.2.1]
      exact hgmin

lemma p1_vTrue : p1.value [true] = 1 := by
  show (0 + (1 : ℚ)) + (0 + ((0 : ℕ) : ℚ) * 1) = 1
  norm_num

lemma p1_vFalse : p1.value [false] = 1 := by
  show (0 : ℚ) + (0 + ((1 : ℕ) : ℚ) * 1) = 1
  norm_num

lemma p1_cols (g : Rng) :
    (p1.selectRow [true] RowSelectionStrategy.Max g).1 = [0] := rfl

lemma p1_improve (strat : ImprovementStrategy) (g : Rng) :
    p1.improve [true] strat RowSelectionStrategy.Max g = ([true], g) := by
  have h1 : (p1.improve [true] strat RowSelectionStrategy.Max g).1 = [true] := by
    apply improve_eq_self_of_no_improvement
    intro c hc
    rw [p1_cols g] at hc
    simp at hc
    subst hc
    have hflip : bitFlip [true] 0 = [false] := rfl
    rw [hflip, p1_vFalse, p1_vTrue]
    norm_num
  have h2 : (p1.improve [true] strat RowSelectionStrategy.Max g).2 = g := by
    rw [improve_rng]
    rfl
  exact Prod.ext h1 h2

lemma p1_improveN (strat : ImprovementStrategy) (g : Rng) :
    improveN p1 strat RowSelectionStrategy.Max 1 [true] g = ([true], g) := by
  show improveN p1 strat RowSelectionStrategy.Max 0
    (p1.improve [true] strat RowSelectionStrategy.Max g).1
    (p1.improve [true] strat RowSelectionStrategy.Max g).2 = ([true], g)
  rw [p1_improve]
  rfl

lemma p1_generate : p1.generate ⟨fun k => k, 0, fun _ => 1, 0⟩ 10
    = some ([true], ⟨fun k => k, 1, fun _ => 1, 0⟩) := by
  unfold SPProblem.generate
  have htarget : ((p1.rows : ℚ) / p1.averageNonZeros) = 1 := by
    norm_num [p1, SPProblem.averageNonZeros, SPProblem.n]
  rw [htarget]
  show generateLoop p1.n 1 (9 + 1) 0 (List.replicate p1.n false)
    ⟨fun k => k, 0, fun _ => 1, 0⟩ = _
  rw [generateLoop_succ, if_pos (by norm_num), if_neg (by decide)]
  show generateLoop p1.n 1 (8 + 1) 1 [true] ⟨fun k => k, 1, fun _ => 1, 0⟩ = _
  rw [generateLoop_succ, if_neg (by norm_num)]

lemma p1_init : initLoop p1 ImprovementStrategy.Best RowSelectionStrategy.Max
    1 10 1 [] [] ⟨fun k => k, 0, fun _ => 1, 0⟩
    = some ([[true]], [p1.value [true]], ⟨fun k => k, 1, fun _ => 1, 0⟩) := by
  show initLoop p1 ImprovementStrategy.Best RowSelectionStrategy.Max
    1 10 (0 + 1) [] [] ⟨fun k => k, 0, fun _ => 1, 0⟩ = _
  simp only [initLoop]
  rw [p1_generate]
  show initLoop p1 ImprovementStrategy.Best RowSelectionStrategy.Max 1 10 0
    ([] ++ [(improveN p1 ImprovementStrategy.Best RowSelectionStrategy.Max 1
      [true] ⟨fun k => k, 1, fun _ => 1, 0⟩).1])
    ([] ++ [p1.value (improveN p1 ImprovementStrategy.Best RowSelectionStrategy.Max 1
      [true] ⟨fun k => k, 1, fun _ => 1, 0⟩).1])
    (improveN p1 ImprovementStrategy.Best RowSelectionStrategy.Max 1
      [true] ⟨fun k => k, 1, fun _ => 1, 0⟩).2 = _
  rw [p1_improveN]
  rfl

lemma p1_run : ssgarow p1 1 1 1 ImprovementStrategy.Best RowSelectionStrategy.Max
    (1 / 2) (7 / 10) ⟨fun k => k, 0, fun _ => 1, 0⟩ 10 = some [true] := by
  unfold ssgarow
  rw [p1_init]
  have htgt : Nat.floor (((1 : ℕ) : ℚ) * (1 / 2)) = 0 := by
    rw [Nat.floor_eq_zero]
    norm_num
  show (match genLoop p1 ImprovementStrategy.Best RowSelectionStrategy.Max 1
      (Nat.floor (((1 : ℕ) : ℚ) * (1 / 2))) (7 / 10) 10 1 [[true]]
      [p1.value [true]] ⟨fun k => k, 1, fun _ => 1, 0⟩ with
    | none => none
    | some (pop2, _, g2) =>
      match findBest p1 pop2 with
      | none => none
      | some b => some (improveN p1 ImprovementStrategy.Best
          RowSelectionStrategy.Max 1 (pop2.getD b []) g2).1) = some [true]
  rw [htgt]
  have hgl : genLoop p1 ImprovementStrategy.Best RowSelectionStrategy.Max 1
      0 (7 / 10) 10 1 [[true]] [p1.value [true]] ⟨fun k => k, 1, fun _ => 1, 0⟩
      = some ([[true]], [p1.value [true]], ⟨fun k => k, 1, fun _ => 1, 0⟩) := by
    show genLoop p1 ImprovementStrategy.Best RowSelectionStrategy.Max 1
      0 (7 / 10) 10 (0 + 1) [[true]] [p1.value [true]]
      ⟨fun k => k, 1, fun _ => 1, 0⟩ = _
    simp only [genLoop]
    have hcand : candLoop p1 [[true]] 0 10 [] ⟨fun k => k, 1, fun _ => 1, 0⟩
        = some ([], ⟨fun k => k, 1, fun _ => 1, 0⟩) := by
      show candLoop p1 [[true]] 0 (9 + 1) [] ⟨fun k => k, 1, fun _ => 1, 0⟩ = _
      simp only [candLoop]
      rw [if_neg (by decide)]
    rw [hcand]
    rfl
  rw [hgl]
  show (match findBest p1 [[true]] with
    | none => none
    | some b => some (improveN p1 ImprovementStrategy.Best
        RowSelectionStrategy.Max 1 ([[true]].getD b [])
        ⟨fun k => k, 1, fun _ => 1, 0⟩).1) = some [true]
  have hfb : findBest p1 [[true]] = some 0 := rfl
  rw [hfb]
  show some (improveN p1 ImprovementStrategy.Best RowSelectionStrategy.Max 1
    [true] ⟨fun k => k, 1, fun _ => 1, 0⟩).1 = some [true]
  rw [p1_improveN]

/-- Witness for C4: a complete one-member, one-generation run on `p1`. -/
theorem C4_ssgarow_never_worse_than_init_witness :
    initLoop p1 ImprovementStrategy.Best RowSelectionStrategy.Max 1 10 1 [] []
        ⟨fun k => k, 0, fun _ => 1, 0⟩
      = some ([[true]], [p1.value [true]], ⟨fun k => k, 1, fun _ => 1, 0⟩)
    ∧ ssgarow p1 1 1 1 ImprovementStrategy.Best RowSelectionStrategy.Max
        (1 / 2) (7 / 10) ⟨fun k => k, 0, fun _ => 1, 0⟩ 10 = some [true]
    ∧ p1.value [true] ≤ qMin [p1.value [true]] :=
  ⟨p1_init, p1_run,
    (C4_ssgarow_never_worse_than_init p1 1 1 1 ImprovementStrategy.Best
      RowSelectionStrategy.Max (1 / 2) (7 / 10) ⟨fun k => k, 0, fun _ => 1, 0⟩ 10
      [[true]] [p1.value [true]] ⟨fun k => k, 1, fun _ => 1, 0⟩ [true]
      (by decide) (by decide) (by decide) p1_init p1_run).1⟩
